import Mathlib

/-!
Verification of the setlist-parsing pipeline of `scrape_sf.py`.

Strings are modelled as `List Char`.  Each regular-expression operation of the
source is embedded as a dedicated total function that reproduces the Python
`re` backtracking semantics (leftmost match, greedy/lazy preference) for the
specific pattern appearing in the source.  All recursion is structural, so
every definition evaluates on concrete inputs inside the kernel.
-/

namespace SF

/-- Convert a Lean string literal to the character-list representation. -/
def chs (s : String) : List Char := s.toList

/-- The whitespace class of Python: the characters matched by `\s` and
stripped by `str.strip()`. -/
def pyWs (c : Char) : Bool :=
  c = ' ' || c = '\t' || c = '\n' || c = '\r' || c = '\x0b' || c = '\x0c' ||
  c = '\x1c' || c = '\x1d' || c = '\x1e' || c = '\x1f' || c = '\x85' || c = '\xa0' ||
  c = ' ' || c = ' ' || c = ' ' || c = ' ' || c = ' ' ||
  c = ' ' || c = ' ' || c = ' ' || c = ' ' || c = ' ' ||
  c = ' ' || c = ' ' || c = ' ' || c = ' ' || c = ' ' ||
  c = ' ' || c = '　'

/-- Drop the longest suffix of characters satisfying `p`. -/
def dropTrail (p : Char → Bool) (l : List Char) : List Char :=
  (l.reverse.dropWhile p).reverse

/-- Python `str.strip()`: remove leading and trailing whitespace. -/
def pyStrip (l : List Char) : List Char :=
  dropTrail pyWs (l.dropWhile pyWs)

/-- Python `str.strip(q)` for a single character `q`. -/
def stripBoth (q : Char) (l : List Char) : List Char :=
  dropTrail (· = q) (l.dropWhile (· = q))

/-- Line-boundary characters of Python `str.splitlines()`. -/
def isLineBreak (c : Char) : Bool :=
  c = '\n' || c = '\r' || c = '\x0b' || c = '\x0c' || c = '\x1c' || c = '\x1d' ||
  c = '\x1e' || c = '\x85' || c = ' ' || c = ' '

/-- Worker for `pySplitlines`; `acc` holds the current line reversed. -/
def splitlinesGo : List Char → List Char → List (List Char)
  | [], acc => [acc.reverse]
  | '\r' :: '\n' :: r, acc =>
    acc.reverse :: (if r = [] then [] else splitlinesGo r [])
  | c :: r, acc =>
    if isLineBreak c then acc.reverse :: (if r = [] then [] else splitlinesGo r [])
    else splitlinesGo r (c :: acc)

/-- Python `str.splitlines()`. -/
def pySplitlines (s : List Char) : List (List Char) :=
  if s = [] then [] else splitlinesGo s []

/-- Python slice `l[a:b]` for natural bounds. -/
def pySlice (l : List (List Char)) (a b : Nat) : List (List Char) :=
  (l.take b).drop a

/-- Length of the longest whitespace prefix (maximal extent of a greedy `\s*`). -/
def wsLen (s : List Char) : Nat := (s.takeWhile pyWs).length

/-- The numbers `n, n-1, ..., 0`: the order a greedy repetition is tried in. -/
def descRange (n : Nat) : List Nat := (List.range (n + 1)).reverse

/-- The numbers `n, n-1, ..., 1`: greedy order for a `+` repetition. -/
def descFrom1 (n : Nat) : List Nat := ((List.range n).map (· + 1)).reverse

/-- First-occurrence association lookup (Python `dict` access). -/
def lookupA {β : Type} : List (List Char × β) → List Char → Option β
  | [], _ => none
  | (k', v) :: r, k => if k' = k then some v else lookupA r k

/-- Python `dict` assignment: overwrite the first binding in place, else append. -/
def assocSet {β : Type} : List (List Char × β) → List Char → β → List (List Char × β)
  | [], k, v => [(k, v)]
  | (k', v') :: r, k, v => if k' = k then (k, v) :: r else (k', v') :: assocSet r k v

/-- Generic `re.sub` scan: at each position try `tryM`; on a match
`some (repl, rest)` emit `repl` and resume after the match, otherwise copy one
character.  `fuel` is the remaining input length, making recursion structural;
every pattern used in the source consumes at least one character. -/
def subScanAux (tryM : List Char → Option (List Char × List Char)) :
    Nat → List Char → List Char
  | _, [] => []
  | 0, s => s
  | fuel + 1, c :: r =>
    match tryM (c :: r) with
    | some (repl, rest) => repl ++ subScanAux tryM fuel (r.drop (r.length - rest.length))
    | none => c :: subScanAux tryM fuel r

/-- `re.sub` over the whole input. -/
def pySub (tryM : List Char → Option (List Char × List Char)) (s : List Char) :
    List Char :=
  subScanAux tryM s.length s

/-- `re.search` as a boolean: does `tryM` match at some position? -/
def searchAny (tryM : List Char → Option (List Char)) : List Char → Bool
  | [] => (tryM []).isSome
  | c :: r => (tryM (c :: r)).isSome || searchAny tryM r

/-!  `clean_wiki_links`: the two wiki-link substitutions. -/

/-- Matcher for `\[\[([^\]|]+)\|([^\]]+)\]\]` with replacement `\2`. -/
def tryWikiPiped : List Char → Option (List Char × List Char)
  | '[' :: '[' :: r =>
    let g1 := r.takeWhile (fun c => !(c = ']') && !(c = '|'))
    if g1 = [] then none else
    match r.drop g1.length with
    | '|' :: r2 =>
      let g2 := r2.takeWhile (fun c => !(c = ']'))
      if g2 = [] then none else
      match r2.drop g2.length with
      | ']' :: ']' :: r3 => some (g2, r3)
      | _ => none
    | _ => none
  | _ => none

/-- Matcher for `\[\[([^\]]+)\]\]` with replacement `\1`. -/
def tryWikiSingle : List Char → Option (List Char × List Char)
  | '[' :: '[' :: r =>
    let g1 := r.takeWhile (fun c => !(c = ']'))
    if g1 = [] then none else
    match r.drop g1.length with
    | ']' :: ']' :: r3 => some (g1, r3)
    | _ => none
  | _ => none

/-- `clean_wiki_links(s)` from the source. -/
def clean_wiki_links (s : List Char) : List Char :=
  pyStrip (pySub tryWikiSingle (pySub tryWikiPiped s))

/-!  `parse_obsidian_frontmatter`. -/

/-- Matcher tail for `^---\s*\n(.*?)\n---\s*` after the opening dashes: the
greedy `\s*\n` consumes up to the last newline of the whitespace run (tried
longest first), the lazy `(.*?)` stops at the first following `\n---`. -/
def findSubIdx (pat : List Char) : List Char → Option Nat
  | [] => if pat.isPrefixOf ([] : List Char) then some 0 else none
  | c :: r =>
    if pat.isPrefixOf (c :: r) then some 0 else (findSubIdx pat r).map (· + 1)

def strNlDashes : String := "\n---"

def fmAfter (t : List Char) : Option (List Char) :=
  let w := t.takeWhile pyWs
  (((List.range w.length).filter (fun k => w.getD k ' ' = '\n')).reverse).findSome?
    (fun k =>
      let u := t.drop (k + 1)
      (findSubIdx (chs strNlDashes) u).map (fun i => u.take i))

def strDashes : String := "---"

/-- Attempt of the frontmatter pattern at one position ("---" then the tail). -/
def fmHere (s : List Char) : Option (List Char) :=
  if (chs strDashes).isPrefixOf s then fmAfter (s.drop 3) else none

/-- `re.search` scan for the frontmatter pattern: with `re.MULTILINE` the `^`
matches at the start of the text and immediately after every newline. -/
def fmScan : List Char → Bool → Option (List Char)
  | [], _ => none
  | c :: r, atStart =>
    if atStart then
      match fmHere (c :: r) with
      | some g => some g
      | none => fmScan r (c = '\n')
    else fmScan r (c = '\n')

/-- One attempt of `^\s*([^:\n]+)\s*:\s*(.*?)\s*$` (MULTILINE) at a
line-start position.  The nested loops realize the backtracking preference
order: every greedy piece longest-first, the lazy group shortest-first.
Returns the two raw groups and the number of characters consumed. -/
def tryKV (s : List Char) : Option (List Char × List Char × Nat) :=
  (descRange (wsLen s)).findSome? (fun k =>
    let s1 := s.drop k
    let gmax := (s1.takeWhile (fun c => !(c = ':') && !(c = '\n'))).length
    (descFrom1 gmax).findSome? (fun g =>
      let s2 := s1.drop g
      (descRange (wsLen s2)).findSome? (fun w1 =>
        match s2.drop w1 with
        | ':' :: s4 =>
          (descRange (wsLen s4)).findSome? (fun w2 =>
            let s5 := s4.drop w2
            let dmax := (s5.takeWhile (fun c => !(c = '\n'))).length
            (List.range (dmax + 1)).findSome? (fun l =>
              let s6 := s5.drop l
              (descRange (wsLen s6)).findSome? (fun w3 =>
                match s6.drop w3 with
                | [] => some (s1.take g, s5.take l, k + g + w1 + 1 + w2 + l + w3)
                | '\n' :: _ => some (s1.take g, s5.take l, k + g + w1 + 1 + w2 + l + w3)
                | _ => none)))
        | _ => none)))

/-- `re.finditer` scan for the key-value pattern.  A match may only start at a
line start; scanning resumes right after each match.  `fuel` bounds the input
length so the recursion is structural. -/
def kvScanAux : Nat → List Char → Bool → List (List Char × List Char)
  | 0, _, _ => []
  | fuel + 1, s, atStart =>
    if atStart then
      match tryKV s with
      | some (k, v, n) =>
        (k, v) :: kvScanAux fuel (s.drop n) ((s.take n).getLast? = some '\n')
      | none =>
        match s with
        | [] => []
        | c :: r => kvScanAux fuel r (c = '\n')
    else
      match s with
      | [] => []
      | c :: r => kvScanAux fuel r (c = '\n')

def kvEntries (body : List Char) : List (List Char × List Char) :=
  kvScanAux body.length body true

/-- Matcher for `\d{4}-\d{2}-\d{2}` at the head of the input; returns the
matched ten characters and the remainder. -/
def dateShapeAt (s : List Char) : Option (List Char × List Char) :=
  match s with
  | a :: b :: c :: d :: '-' :: e :: f2 :: '-' :: g :: h2 :: rest =>
    if a.isDigit && b.isDigit && c.isDigit && d.isDigit && e.isDigit &&
       f2.isDigit && g.isDigit && h2.isDigit
    then some ([a, b, c, d, '-', e, f2, '-', g, h2], rest) else none
  | _ => none

/-- `re.search(r'(\d{4}-\d{2}-\d{2})', s)`: leftmost occurrence. -/
def dateSearch : List Char → Option (List Char)
  | [] => none
  | c :: r =>
    match dateShapeAt (c :: r) with
    | some (g, _) => some g
    | none => dateSearch r

def strDate : String := "date"

/-- One frontmatter line's contribution to the metadata dictionary. -/
def applyKV (md : List (List Char × List Char)) (kv : List Char × List Char) :
    List (List Char × List Char) :=
  let key := pyStrip kv.1
  let value := stripBoth (Char.ofNat 39) (stripBoth '"' (pyStrip kv.2))
  if value = [] then md
  else
    let value :=
      if key.map Char.toLower = chs strDate then
        match dateSearch value with
        | some d => d
        | none => value
      else value
    assocSet md key value

/-- `parse_obsidian_frontmatter(content)` from the source. -/
def parse_obsidian_frontmatter (content : List Char) : List (List Char × List Char) :=
  match fmScan content true with
  | none => []
  | some body => (kvEntries body).foldl applyKV []

/-!  Section segmentation (`extract_review_section`, `parse_obsidian_setlist`). -/

/-- Zero-based indices of the marker lines (trimmed content exactly `---`). -/
def markerIdxs (lines : List (List Char)) : List Nat :=
  (lines.enum.filter (fun p => pyStrip p.2 = chs strDashes)).map Prod.fst

/-- Matcher for `\*\*MVP:\*\*\s*$` (MULTILINE): after the literal, the greedy
`\s*` ends at the last position of the whitespace run that sits at a line end. -/
def strMVP : String := "**MVP:**"

def tryMVP (s : List Char) : Option (List Char × List Char) :=
  if (chs strMVP).isPrefixOf s then
    let r := s.drop (chs strMVP).length
    ((descRange (wsLen r)).findSome? (fun w =>
      if w = r.length || r.getD w ' ' = '\n' then some w else none)).map
      (fun w => (([] : List Char), r.drop w))
  else none

/-- `extract_review_section(content)` from the source. -/
def extract_review_section (content : List Char) : List Char :=
  let lines := pySplitlines content
  let markers := markerIdxs lines
  if markers.length < 3 then [] else
  let start := markers.getD 2 0 + 1
  let review_lines :=
    if 4 ≤ markers.length then pySlice lines start (markers.getD 3 0)
    else lines.drop start
  let review_content := pyStrip (List.intercalate ['\n'] review_lines)
  pyStrip (pySub tryMVP review_content)

/-- Number of leading occurrences of `c`. -/
def countLeading (c : Char) (l : List Char) : Nat :=
  (l.takeWhile (· = c)).length

/-- One candidate end for `\s*(.+)`: `\s*` of length `k`, then `.+` takes the
maximal run of non-newline characters (must be nonempty). -/
def tryTailAt (r : List Char) (k : Nat) : Option (List Char) :=
  if k < r.length && !(r.getD k ' ' = '\n') then
    some ((r.drop k).takeWhile (fun c => !(c = '\n')))
  else none

/-- Greedy search over the `\s*` length, longest first. -/
def tryTailAux (r : List Char) : Nat → Option (List Char)
  | 0 => tryTailAt r 0
  | k + 1 => (tryTailAt r (k + 1)).orElse (fun _ => tryTailAux r k)

def tryTail (r : List Char) : Option (List Char) :=
  tryTailAux r (wsLen r)

/-- `re.match(r'\*{2,3}([^*:]+)\s*:\*{2,3}\s*(.+)', line)`: label and content
groups.  Leading `\*{2,3}` takes `min` of the leading run and 3 (a shorter
choice would put a `*` in front of the label class and fail); after the colon
the closing `\*{2,3}` is tried greedily with 3 first, falling back to 2. -/
def matchSetHeader (line : List Char) : Option (List Char × List Char) :=
  let na := countLeading '*' line
  if na < 2 then none else
  let s1 := line.drop (min na 3)
  let g1 := s1.takeWhile (fun c => !(c = '*') && !(c = ':'))
  if g1 = [] then none else
  let rest := s1.drop g1.length
  if rest.head? = some ':' then
    let r2 := rest.tail
    let nb := countLeading '*' r2
    if nb < 2 then none else
    match tryTail (r2.drop (min nb 3)) with
    | some content => some (g1, content)
    | none =>
      if 3 ≤ nb then
        match tryTail (r2.drop 2) with
        | some content => some (g1, content)
        | none => none
      else none
  else none

/-- The slice of lines the setlist loop of `parse_obsidian_setlist` runs over:
from just after the second marker to the third marker or the end. -/
def setlistRegionLines (content : List Char) : List (List Char) :=
  let lines := pySplitlines content
  let markers := markerIdxs lines
  if markers.length < 2 then [] else
  let frontmatter_end := markers.getD 1 0
  let setlist_end := if 3 ≤ markers.length then markers.getD 2 0 else lines.length
  pySlice lines (frontmatter_end + 1) setlist_end

/-- Per-line step of the setlist loop. -/
def setlistStep (sets : List (List Char × List Char)) (line : List Char) :
    List (List Char × List Char) :=
  let l := pyStrip line
  if l = [] then sets else
  match matchSetHeader l with
  | some (lab, c) => assocSet sets (pyStrip lab) (clean_wiki_links c)
  | none => sets

/-- `parse_obsidian_setlist(content)` from the source. -/
def parse_obsidian_setlist (content : List Char) : List (List Char × List Char) :=
  if (markerIdxs (pySplitlines content)).length < 2 then [] else
  (setlistRegionLines content).foldl setlistStep []

/-!  `parse_songs_from_setlist`. -/

def songMiami : String := "April 29, 1992 (Miami)"
def songSmooth : String := "Smooth, Relax, Down"
def songToBeYoung : String := "To Be Young (Is To Be Sad, Is To Be High)"

def SONGS_WITH_COMMAS : List (List Char) :=
  [songMiami.toList, songSmooth.toList, songToBeYoung.toList]

def strPHpre : String := "___PROTECTED_SONG_"
def strPHpost : String := "___"

def placeholder (idx : Nat) : List Char :=
  (strPHpre ++ toString idx ++ strPHpost).toList

/-- Case-insensitive literal match of `pat` at the head; returns the rest. -/
def matchCI : List Char → List Char → Option (List Char)
  | [], rest => some rest
  | _ :: _, [] => none
  | p :: ps, c :: cs => if p.toLower = c.toLower then matchCI ps cs else none

/-- Matcher for `\s*\(\d+[\d:]*\)` at the head; returns the rest.  Each greedy
class run is maximal: giving characters back can never satisfy the following
literal, so the match is deterministic. -/
def parenCore (r1 : List Char) : Option (List Char) :=
  let r2 := r1.dropWhile pyWs
  if r2.head? = some '(' then
    match r2.tail.head? with
    | some d =>
      if d.isDigit then
        let r5 := r2.tail.dropWhile (fun c => c.isDigit || c = ':')
        if r5.head? = some ')' then some r5.tail else none
      else none
    | none => none
  else none

/-- Matcher for `\s*\[\s*\d+[\d:]*\s*\]` at the head; returns the rest. -/
def brackCore (r1 : List Char) : Option (List Char) :=
  let r2 := r1.dropWhile pyWs
  if r2.head? = some '[' then
    let r4 := r2.tail.dropWhile pyWs
    match r4.head? with
    | some d =>
      if d.isDigit then
        let r6 := (r4.dropWhile (fun c => c.isDigit || c = ':')).dropWhile pyWs
        if r6.head? = some ']' then some r6.tail else none
      else none
    | none => none
  else none

/-- The three protection pattern variants for one title: the title followed by
a parenthesized annotation, by a bracketed annotation, or bare. -/
def protTry (variant : Nat) (song : List Char) (s : List Char) : Option (List Char) :=
  match variant with
  | 1 => (matchCI song s).bind parenCore
  | 2 => (matchCI song s).bind brackCore
  | _ => matchCI song s

def protSub (variant : Nat) (song ph content : List Char) : List Char :=
  pySub (fun s => (protTry variant song s).map (fun rest => (ph, rest))) content

/-- One iteration of the protection loop: the first variant that occurs is
substituted everywhere and the placeholder recorded. -/
def protectOne (idx : Nat) (song content : List Char) :
    List Char × Option (List Char × List Char) :=
  let ph := placeholder idx
  if searchAny (protTry 1 song) content then
    (protSub 1 song ph content, some (ph, song))
  else if searchAny (protTry 2 song) content then
    (protSub 2 song ph content, some (ph, song))
  else if searchAny (protTry 3 song) content then
    (protSub 3 song ph content, some (ph, song))
  else (content, none)

def protStep (acc : List Char × List (List Char × List Char)) (p : Nat × List Char) :
    List Char × List (List Char × List Char) :=
  let r := protectOne p.1 p.2 acc.1
  (r.1, match r.2 with | some pr => acc.2 ++ [pr] | none => acc.2)

/-- The whole protection pass over `SONGS_WITH_COMMAS` (text, replacements). -/
def protectSongs (content : List Char) : List Char × List (List Char × List Char) :=
  SONGS_WITH_COMMAS.enum.foldl protStep (content, [])

/-- `re.sub(r'(?:->|>|→|–|—)', ',', s)`: rewrite every transition symbol to a
comma (the two-character arrow is tried before the bare `>`). -/
def arrowSub : List Char → List Char
  | [] => []
  | '-' :: '>' :: r => ',' :: arrowSub r
  | '>' :: r => ',' :: arrowSub r
  | '→' :: r => ',' :: arrowSub r
  | '–' :: r => ',' :: arrowSub r
  | '—' :: r => ',' :: arrowSub r
  | c :: r => c :: arrowSub r

def isSep (c : Char) : Bool := c = ',' || c = ';' || c = '|'

/-- `re.split(r'\s*(?:,|;|\|)\s*', s)`: the piece before a separator loses the
whitespace run adjoining it (the leftmost match starts there), and the
whitespace after a separator is consumed by the same match (`skipWs` state). -/
def splitGo : Bool → List Char → List Char → List (List Char)
  | _, [], acc => [acc.reverse]
  | skipWs, c :: r, acc =>
    if skipWs && pyWs c then splitGo true r acc
    else if isSep c then (acc.dropWhile pyWs).reverse :: splitGo true r []
    else splitGo false r (c :: acc)

/-- Matcher for `\s+\d+$`: whitespace then digits, anchored at the end of the
string (or before one final newline). -/
def tryTrailInt (s : List Char) : Option (List Char × List Char) :=
  match s with
  | c :: _ =>
    if pyWs c then
      match s.dropWhile pyWs with
      | d :: _ =>
        if d.isDigit then
          let r2 := (s.dropWhile pyWs).dropWhile Char.isDigit
          if r2 = [] || r2 = ['\n'] then some (([] : List Char), r2) else none
        else none
      | [] => none
    else none
  | [] => none

/-- `re.sub(r'\s+', ' ', s)` as a two-state scan: outside a whitespace run a
whitespace character emits one space and enters the run; inside it further
whitespace is skipped. -/
def collapseGo : Bool → List Char → List Char
  | _, [] => []
  | false, c :: r => if pyWs c then ' ' :: collapseGo true r else c :: collapseGo false r
  | true, c :: r => if pyWs c then collapseGo true r else c :: collapseGo false r

def collapseWs (s : List Char) : List Char := collapseGo false s

/-- Deleting substitution built from the parenthesized-annotation matcher. -/
def parenSub (s : List Char) : Option (List Char × List Char) :=
  (parenCore s).map (fun rest => (([] : List Char), rest))

/-- Deleting substitution built from the bracketed-annotation matcher. -/
def brackSub (s : List Char) : Option (List Char × List Char) :=
  (brackCore s).map (fun rest => (([] : List Char), rest))

/-- The per-fragment cleanup of `parse_songs_from_setlist`: remove
parenthesized and bracketed numeric annotations, a trailing bare integer, then
`rstrip('-')`, `strip()` and collapse whitespace runs. -/
def cleanupPart (part : List Char) : List Char :=
  let s1 := pySub parenSub part
  let s2 := pySub brackSub s1
  let s3 := pySub tryTrailInt s2
  collapseWs (pyStrip (dropTrail (· = '-') s3))

/-- Per-fragment step of the song loop: placeholders restore the protected
title verbatim, other fragments are cleaned and kept when nonempty. -/
def songStep (repl : List (List Char × List Char)) (songs : List (List Char))
    (part : List Char) : List (List Char) :=
  match lookupA repl part with
  | some orig => songs ++ [orig]
  | none =>
    let n := cleanupPart part
    if n = [] then songs else songs ++ [n]

/-- `parse_songs_from_setlist(set_content)` from the source. -/
def parse_songs_from_setlist (set_content : List Char) : List (List Char) :=
  if pyStrip set_content = [] then [] else
  let pr := protectSongs set_content
  let content := arrowSub pr.1
  let parts := ((splitGo false content []).map pyStrip).filter (fun p => !(p = []))
  parts.foldl (songStep pr.2) []

/-!  `scan_obsidian_vault` per-file processing and `build_song_database`. -/

structure Appearance where
  date : List Char
  url : List Char
  setName : List Char
deriving DecidableEq

structure ShowData where
  date : List Char
  venue : List Char
  city : List Char
  state : List Char
  tour : List Char
  show_number : List Char
  rating : List Char
  sets : List (List Char × List Char)
  notes : List (List Char)
  source : List Char
  obsidian_file : List Char
  url : List Char
deriving DecidableEq

/-- `re.match(r'^\d{4}-\d{2}-\d{2}$', stem)` as a boolean. -/
def stemMatchesDate (stem : List Char) : Bool :=
  match dateShapeAt stem with
  | some (_, rest) => rest = [] || rest = ['\n']
  | none => false

def strVenue : String := "venue"
def strUnknownVenue : String := "Unknown Venue"
def strCity : String := "city"
def strState : String := "state"
def strTour : String := "tour"
def strShowNumber : String := "show_number"
def strRating : String := "rating"
def strObsidian : String := "obsidian"

/-- The date-resolution step of the vault scan: the frontmatter `date` when
present and nonblank, otherwise the first date substring of the filename stem. -/
def resolveDate (stem content : List Char) : Option (List Char) :=
  let metadata := parse_obsidian_frontmatter content
  match lookupA metadata (chs strDate) with
  | some v => if pyStrip v ≠ [] then some (pyStrip v) else dateSearch stem
  | none => dateSearch stem

/-- The loop body of `scan_obsidian_vault` for one readable file: filename
filter, date resolution, setlist requirement, record assembly.  `none` means
the file was skipped. -/
def processFile (path stem content : List Char) : Option ShowData :=
  if stem.contains '_' || !(stemMatchesDate stem) then none else
  match resolveDate stem content with
  | none => none
  | some date =>
    let sets := parse_obsidian_setlist content
    if sets = [] then none else
    let metadata := parse_obsidian_frontmatter content
    let review := extract_review_section content
    some {
      date := date
      venue := (lookupA metadata (chs strVenue)).getD (chs strUnknownVenue)
      city := (lookupA metadata (chs strCity)).getD []
      state := (lookupA metadata (chs strState)).getD []
      tour := (lookupA metadata (chs strTour)).getD []
      show_number := (lookupA metadata (chs strShowNumber)).getD []
      rating := (lookupA metadata (chs strRating)).getD []
      sets := sets
      notes := if review = [] then [] else [review]
      source := chs strObsidian
      obsidian_file := path
      url := [] }

/-- Python `song_db.setdefault(song, []).append(app)` pattern of the source:
create the key at the end on first sight, then append the appearance. -/
def appendApp : List (List Char × List Appearance) → List Char → Appearance →
    List (List Char × List Appearance)
  | [], k, a => [(k, [a])]
  | (k', l) :: rest, k, a =>
    if k' = k then (k', l ++ [a]) :: rest else (k', l) :: appendApp rest k a

/-- `build_song_database(shows_db)` from the source. -/
def build_song_database (db : List (List Char × ShowData)) :
    List (List Char × List Appearance) :=
  db.foldl (fun song_db kv =>
    kv.2.sets.foldl (fun song_db sc =>
      (parse_songs_from_setlist sc.2).foldl (fun song_db song =>
        appendApp song_db song ⟨kv.2.date, kv.2.url, sc.1⟩) song_db) song_db) []

/-!  Claim theorems and their supporting lemmas. -/

theorem setlistRegionLines_two_markers (content : List Char) (i0 i1 : Nat)
    (h : markerIdxs (pySplitlines content) = [i0, i1]) :
    setlistRegionLines content = (pySplitlines content).drop (i1 + 1) := by
  simp [setlistRegionLines, h, pySlice, List.take_length]

theorem c5doc_nonempty_region (content : List Char) (i1 : Nat)
    (h : setlistRegionLines content = (pySplitlines content).drop (i1 + 1))
    (hl : i1 + 1 < (pySplitlines content).length) :
    setlistRegionLines content ≠ [] := by
  rw [h]
  intro he
  have := congrArg List.length he
  simp [List.length_drop] at this
  omega

/-- Claim C5 (amended): for every document whose lines contain exactly two
marker lines, the setlist region is the slice from just after the second
marker to the end of the document — non-empty precisely when at least one
line follows the second marker — and the review region is empty. -/
theorem c5_amended (content : List Char) (i0 i1 : Nat)
    (h : markerIdxs (pySplitlines content) = [i0, i1]) :
    setlistRegionLines content = (pySplitlines content).drop (i1 + 1) ∧
      extract_review_section content = [] ∧
      (i1 + 1 < (pySplitlines content).length → setlistRegionLines content ≠ []) := by
  have hr := setlistRegionLines_two_markers content i0 i1 h
  refine ⟨hr, ?_, fun hl => c5doc_nonempty_region content i1 hr hl⟩
  simp [extract_review_section, h]

def exC5wit : String := "---\na\n---\nx"

/-- Witness for the amended C5 at a concrete two-marker document. -/
theorem c5_amended_witness :
    setlistRegionLines (chs exC5wit) = (pySplitlines (chs exC5wit)).drop 3 ∧
      extract_review_section (chs exC5wit) = [] ∧
      (3 < (pySplitlines (chs exC5wit)).length → setlistRegionLines (chs exC5wit) ≠ []) :=
  c5_amended (chs exC5wit) 0 2 (by decide)

theorem dateSearch_of_stem (stem : List Char) (h : stemMatchesDate stem = true) :
    (dateSearch stem).isSome := by
  cases stem with
  | nil => simp [stemMatchesDate, dateShapeAt] at h
  | cons c r =>
    unfold stemMatchesDate at h
    cases hd : dateShapeAt (c :: r) with
    | none => rw [hd] at h; simp at h
    | some p => simp [dateSearch, hd]

theorem resolveDate_isSome (stem content : List Char)
    (h : stemMatchesDate stem = true) : (resolveDate stem content).isSome := by
  cases hl : lookupA (parse_obsidian_frontmatter content) (chs strDate) with
  | none =>
    simp only [resolveDate, hl]
    exact dateSearch_of_stem stem h
  | some v =>
    by_cases hv : pyStrip v = []
    · simp only [resolveDate, hl, hv, ne_eq, not_true_eq_false, if_false]
      exact dateSearch_of_stem stem h
    · simp [resolveDate, hl, hv]

/-- Claim C10: for every document that passes the vault scan's filename filter
(stem matches the date shape, no underscore), a date always resolves — so the
skip-for-unresolvable-date branch is unreachable, and every such document with
a non-empty Section Map yields a Show Record. -/
theorem c10_filtered_date_resolves (path stem content : List Char)
    (h1 : stem.contains '_' = false) (h2 : stemMatchesDate stem = true) :
    (resolveDate stem content).isSome ∧
      (parse_obsidian_setlist content ≠ [] → (processFile path stem content).isSome) := by
  refine ⟨resolveDate_isSome stem content h2, fun hs => ?_⟩
  obtain ⟨d, hd⟩ := Option.isSome_iff_exists.mp (resolveDate_isSome stem content h2)
  have h1' : '_' ∉ stem := by
    intro hm
    simp [List.contains_eq_any_beq, List.any_eq_true] at h1
    exact h1 hm
  simp [processFile, h1', h2, hd, hs]

def exC10stem : String := "2024-07-04"
def exC10doc : String := "---\nx\n---\n**Set 1:** A\n"

/-- Witness for C10 at a concrete filtered stem and document. -/
theorem c10_witness :
    (resolveDate (chs exC10stem) (chs exC10doc)).isSome ∧
      (parse_obsidian_setlist (chs exC10doc) ≠ [] →
        (processFile (chs exC10stem) (chs exC10stem) (chs exC10doc)).isSome) :=
  c10_filtered_date_resolves (chs exC10stem) (chs exC10stem) (chs exC10doc)
    (by decide) (by decide)

def exC7 : String := "Song A -> Song B, Song C (12:34)"
def exSongA : String := "Song A"
def exSongB : String := "Song B"
def exSongC : String := "Song C"

/-- Claim C7: the Song Tokenizer applied to `"Song A -> Song B, Song C (12:34)"`
returns exactly `["Song A", "Song B", "Song C"]`, treating the arrow and the
comma as equivalent separators and stripping the trailing time annotation. -/
theorem c7_tokenizer_example :
    parse_songs_from_setlist (chs exC7) = [chs exSongA, chs exSongB, chs exSongC] := by
  decide

def exC8doc : String := "---\ndate: 2023-05-01\nvenue: The Hall\n---\nbody"
def exC8date : String := "2023-05-01"
def exC8hall : String := "The Hall"

/-- Claim C8: the Frontmatter Parser applied to the five-line document yields
exactly the mapping `date ↦ 2023-05-01`, `venue ↦ The Hall`. -/
theorem c8_frontmatter_example :
    parse_obsidian_frontmatter (chs exC8doc) =
      [(chs strDate, chs exC8date), (chs strVenue, chs exC8hall)] := by
  decide

def exC3in : String := "Song (12) Reprise"
def exC3out : String := "Song Reprise"

/-- Claim C3 counterexample: on the fragment `"Song (12) Reprise"` the claim
says the interior parenthesized numeric annotation is left in place in the
returned song name, but the returned list does not contain that name. -/
theorem c3_counterexample :
    ¬ (chs exC3in ∈ parse_songs_from_setlist (chs exC3in)) := by
  decide

def exC4bad : String := "xApril 29, 1992 (Miami)"
def exC4good : String := "Song X, April 29, 1992 (Miami), Song Y"
def exC4x : String := "Song X"
def exC4y : String := "Song Y"

/-- Claim C4 counterexample: the input contains the exact protected title as a
substring, yet the Song Tokenizer's output does not contain the title (the
occurrence is embedded in a larger token, so the placeholder is never
restored). -/
theorem c4_counterexample :
    (chs songMiami) <:+: (chs exC4bad) ∧
      ¬ (chs songMiami ∈ parse_songs_from_setlist (chs exC4bad)) := by
  constructor
  · decide
  · decide

def exC1doc : String := "---\nx\n---\n*Set 1:* Song A"
def exC1line : String := "*Set 1:* Song A"

/-- Claim C1 counterexample: the document's setlist region consists of the
single-asterisk header line `*Set 1:* Song A`; the header regex does not match
it and the Section Map stays empty. -/
theorem c1_counterexample :
    setlistRegionLines (chs exC1doc) = [chs exC1line] ∧
      matchSetHeader (pyStrip (chs exC1line)) = none ∧
      parse_obsidian_setlist (chs exC1doc) = [] := by
  refine ⟨by decide, by decide, by decide⟩

def exC5doc : String := "---\nx\n---"

/-- Claim C5 counterexample: this document has exactly two marker lines, and
its setlist region (after the second marker, which is the last line) is
empty, contradicting the claimed non-emptiness. -/
theorem c5_counterexample :
    markerIdxs (pySplitlines (chs exC5doc)) = [0, 2] ∧
      setlistRegionLines (chs exC5doc) = [] := by
  refine ⟨by decide, by decide⟩

def exC2doc : String := "intro\n---\ndate: 2023-05-01\n---\n"
def exC2line0 : String := "intro"

/-- Claim C2 counterexample: in this document the `---`-delimited block only
appears after the non-whitespace line `intro` (the first marker line is at
index 1), yet the Frontmatter Parser returns a non-empty mapping rather than
the empty one the claim demands. -/
theorem c2_counterexample :
    markerIdxs (pySplitlines (chs exC2doc)) = [1, 3] ∧
      (pySplitlines (chs exC2doc)).getD 0 [] = chs exC2line0 ∧
      pyStrip (chs exC2line0) ≠ [] ∧
      parse_obsidian_frontmatter (chs exC2doc) = [(chs strDate, chs exC8date)] := by
  refine ⟨by decide, by decide, by decide, by decide⟩

/-!  Claim C6: song index built from a single show. -/

/-- The expected appearance list of song `s` for show `sh`: per set in order,
one appearance (with the show's date and url and that set's label) for every
time the Song Tokenizer emits `s` from that set's text. -/
def appsOf (sh : ShowData) (s : List Char) : List Appearance :=
  sh.sets.flatMap (fun sc =>
    List.replicate ((parse_songs_from_setlist sc.2).count s) ⟨sh.date, sh.url, sc.1⟩)

/-- How a block of appearances combines with an existing optional entry. -/
def combineApps (o : Option (List Appearance)) (f : List Appearance) :
    Option (List Appearance) :=
  match o with
  | some x => some (x ++ f)
  | none => if f = [] then none else some f

theorem lookupA_appendApp (db : List (List Char × List Appearance)) (k : List Char)
    (a : Appearance) (s : List Char) :
    lookupA (appendApp db k a) s =
      if s = k then some (((lookupA db s).getD []) ++ [a]) else lookupA db s := by
  induction db with
  | nil =>
    by_cases h : s = k
    · simp [appendApp, lookupA, h]
    · simp [appendApp, lookupA, h, Ne.symm h]
  | cons p rest ih =>
    obtain ⟨k', l⟩ := p
    by_cases h1 : k' = k
    · subst h1
      by_cases h2 : s = k'
      · simp [appendApp, lookupA, h2]
      · simp [appendApp, lookupA, h2, Ne.symm h2]
    · by_cases h2 : k' = s
      · subst h2
        simp [appendApp, lookupA, h1, Ne.symm h1]
      · simp [appendApp, lookupA, h1, h2, ih]

theorem lookupA_fold_appendApp (songs : List (List Char))
    (db : List (List Char × List Appearance)) (a : Appearance) (s : List Char) :
    lookupA (songs.foldl (fun db song => appendApp db song a) db) s =
      if songs.count s = 0 then lookupA db s
      else some (((lookupA db s).getD []) ++ List.replicate (songs.count s) a) := by
  induction songs generalizing db with
  | nil => simp
  | cons t ts ih =>
    rw [List.foldl_cons, ih, lookupA_appendApp]
    by_cases hts : s = t
    · subst hts
      simp only [List.count_cons_self, if_pos rfl]
      by_cases h0 : ts.count s = 0 <;>
        simp [h0, List.replicate_succ, List.append_assoc]
    · have hc : (t :: ts).count s = ts.count s := by
        simp [List.count_cons, Ne.symm hts]
      simp [hc, if_neg hts]

theorem combineApps_combineApps (o : Option (List Appearance))
    (f g : List Appearance) :
    combineApps (combineApps o f) g = combineApps o (f ++ g) := by
  cases o with
  | some x => simp [combineApps, List.append_assoc]
  | none =>
    by_cases hf : f = [] <;> by_cases hg : g = [] <;>
      simp [combineApps, hf, hg]

theorem lookupA_fold_one_set (songs : List (List Char))
    (db : List (List Char × List Appearance)) (a : Appearance) (s : List Char) :
    lookupA (songs.foldl (fun db song => appendApp db song a) db) s =
      combineApps (lookupA db s) (List.replicate (songs.count s) a) := by
  rw [lookupA_fold_appendApp]
  by_cases h0 : songs.count s = 0
  · cases hdb : lookupA db s <;> simp [h0, hdb, combineApps]
  · cases hdb : lookupA db s <;>
      simp [h0, hdb, combineApps, List.replicate_eq_nil_iff]

theorem lookupA_fold_sets (sets : List (List Char × List Char))
    (db : List (List Char × List Appearance)) (d u s : List Char) :
    lookupA (sets.foldl (fun song_db sc =>
        (parse_songs_from_setlist sc.2).foldl
          (fun song_db song => appendApp song_db song ⟨d, u, sc.1⟩) song_db) db) s =
      combineApps (lookupA db s) (sets.flatMap (fun sc =>
        List.replicate ((parse_songs_from_setlist sc.2).count s)
          (⟨d, u, sc.1⟩ : Appearance))) := by
  induction sets generalizing db with
  | nil => cases hdb : lookupA db s <;> simp [hdb, combineApps]
  | cons sc rest ih =>
    rw [List.foldl_cons, ih, lookupA_fold_one_set, combineApps_combineApps,
      List.flatMap_cons]

/-- Claim C6: in the song database built from a single Show Record, each song
name's entry is exactly one appearance per emission of that name by the Song
Tokenizer across the show's sets, carrying the show's date and url and the
originating set label (and no entry at all when the name is never emitted). -/
theorem c6_single_show_index (k : List Char) (sh : ShowData) (s : List Char) :
    lookupA (build_song_database [(k, sh)]) s =
      if appsOf sh s = [] then none else some (appsOf sh s) := by
  show lookupA (List.foldl _ [] [(k, sh)]) s = _
  rw [List.foldl_cons, List.foldl_nil, lookupA_fold_sets]
  simp [lookupA, appsOf, combineApps]

/-!  Claim C9: shape of the tokenizer's output strings. -/

/-- The first character, if any, is not whitespace. -/
def okHead (l : List Char) : Bool :=
  match l.head? with
  | some c => !(pyWs c)
  | none => true

/-- The last character, if any, is not whitespace. -/
def okLast (l : List Char) : Bool :=
  match l.getLast? with
  | some c => !(pyWs c)
  | none => true

/-- No two adjacent characters are both whitespace. -/
def okSpacing : List Char → Bool
  | [] => true
  | a :: l =>
    (match l.head? with
     | some b => !(pyWs a && pyWs b)
     | none => true) && okSpacing l

theorem lookupA_mem {β : Type} (l : List (List Char × β)) (k : List Char) (v : β)
    (h : lookupA l k = some v) : (k, v) ∈ l := by
  induction l with
  | nil => simp [lookupA] at h
  | cons p rest ih =>
    obtain ⟨k', v'⟩ := p
    by_cases hk : k' = k
    · subst hk
      simp [lookupA] at h
      simp [h]
    · simp [lookupA, hk] at h
      exact List.mem_cons_of_mem _ (ih h)

theorem protectOne_snd (idx : Nat) (song c : List Char) :
    (protectOne idx song c).2 = none ∨
      (protectOne idx song c).2 = some (placeholder idx, song) := by
  unfold protectOne
  split_ifs <;> simp

theorem protectFold_mem (l : List (Nat × List Char))
    (acc : List Char × List (List Char × List Char)) (pl v : List Char)
    (h : (pl, v) ∈ (l.foldl protStep acc).2) :
    (pl, v) ∈ acc.2 ∨ v ∈ l.map Prod.snd := by
  induction l generalizing acc with
  | nil =>
    rw [List.foldl_nil] at h
    exact Or.inl h
  | cons p rest ih =>
    rw [List.foldl_cons] at h
    rcases ih (protStep acc p) h with hm | hm
    · have hm' : (pl, v) ∈ (match (protectOne p.1 p.2 acc.1).2 with
        | some pr => acc.2 ++ [pr]
        | none => acc.2) := by
        simpa [protStep] using hm
      rcases protectOne_snd p.1 p.2 acc.1 with ho | ho <;> rw [ho] at hm'
      · exact Or.inl hm'
      · rcases List.mem_append.mp hm' with hmm | hmm
        · exact Or.inl hmm
        · simp at hmm
          right
          rw [List.map_cons, hmm.2]
          exact List.mem_cons_self _ _
    · right
      rw [List.map_cons]
      exact List.mem_cons_of_mem _ hm

theorem protectSongs_mem (c pl v : List Char)
    (h : (pl, v) ∈ (protectSongs c).2) : v ∈ SONGS_WITH_COMMAS := by
  rcases protectFold_mem _ _ _ _ h with hm | hm
  · simp at hm
  · have he : SONGS_WITH_COMMAS.enum.map Prod.snd = SONGS_WITH_COMMAS := by decide
    rw [he] at hm
    exact hm

theorem songsFold_mem (repl : List (List Char × List Char))
    (parts : List (List Char)) (acc : List (List Char)) (e : List Char)
    (h : e ∈ parts.foldl (songStep repl) acc) :
    e ∈ acc ∨ (∃ pl, (pl, e) ∈ repl) ∨ (e ≠ [] ∧ ∃ part, e = cleanupPart part) := by
  induction parts generalizing acc with
  | nil => simp at h; exact Or.inl h
  | cons p ps ih =>
    rw [List.foldl_cons] at h
    rcases ih (songStep repl acc p) h with hm | hm | hm
    · unfold songStep at hm
      cases hl : lookupA repl p with
      | some orig =>
        rw [hl] at hm
        rcases List.mem_append.mp hm with hm | hm
        · exact Or.inl hm
        · simp at hm
          subst hm
          exact Or.inr (Or.inl ⟨p, lookupA_mem repl p e hl⟩)
      | none =>
        rw [hl] at hm
        by_cases hc : cleanupPart p = []
        · rw [if_pos hc] at hm
          exact Or.inl hm
        · rw [if_neg hc] at hm
          rcases List.mem_append.mp hm with hm | hm
          · exact Or.inl hm
          · simp at hm
            subst hm
            exact Or.inr (Or.inr ⟨hc, p, rfl⟩)
    · exact Or.inr (Or.inl hm)
    · exact Or.inr (Or.inr hm)

theorem head?_dropWhile (p : Char → Bool) (l : List Char) (c : Char)
    (h : (l.dropWhile p).head? = some c) : p c = false := by
  induction l with
  | nil => simp [List.dropWhile] at h
  | cons a r ih =>
    by_cases hp : p a
    · rw [List.dropWhile_cons_of_pos hp] at h
      exact ih h
    · rw [List.dropWhile_cons_of_neg hp] at h
      simp at h
      subst h
      simpa using hp

theorem dropTrail_prefix (p : Char → Bool) (l : List Char) :
    dropTrail p l <+: l := by
  have hs : l.reverse.dropWhile p <:+ l.reverse := List.dropWhile_suffix p
  have h2 : ((l.reverse.dropWhile p).reverse).reverse <:+ l.reverse := by
    rwa [List.reverse_reverse]
  exact List.reverse_suffix.mp h2

theorem okHead_dropTrail (p : Char → Bool) (l : List Char)
    (h : okHead l = true) : okHead (dropTrail p l) = true := by
  unfold okHead
  cases hh : (dropTrail p l).head? with
  | none => rfl
  | some c =>
    obtain ⟨t, ht⟩ := dropTrail_prefix p l
    cases hd : dropTrail p l with
    | nil => rw [hd] at hh; simp at hh
    | cons a r =>
      rw [hd] at hh
      simp at hh
      subst hh
      rw [hd] at ht
      rw [← ht] at h
      unfold okHead at h
      simpa using h

theorem okLast_dropTrail (l : List Char) : okLast (dropTrail pyWs l) = true := by
  unfold okLast
  cases hh : (dropTrail pyWs l).getLast? with
  | none => rfl
  | some c =>
    unfold dropTrail at hh
    rw [List.getLast?_reverse] at hh
    simp [head?_dropWhile pyWs l.reverse c hh]

theorem okHead_strip (l : List Char) : okHead (pyStrip l) = true := by
  unfold pyStrip
  apply okHead_dropTrail
  unfold okHead
  cases hh : (l.dropWhile pyWs).head? with
  | none => rfl
  | some c => simp [head?_dropWhile pyWs l c hh]

theorem okLast_strip (l : List Char) : okLast (pyStrip l) = true :=
  okLast_dropTrail _

theorem collapse_head_true (y : List Char) (c : Char)
    (h : (collapseGo true y).head? = some c) : pyWs c = false := by
  induction y with
  | nil => simp [collapseGo] at h
  | cons a r ih =>
    by_cases hp : pyWs a
    · rw [show collapseGo true (a :: r) = collapseGo true r by simp [collapseGo, hp]] at h
      exact ih h
    · rw [show collapseGo true (a :: r) = a :: collapseGo false r by
        simp [collapseGo, hp]] at h
      simp at h
      subst h
      simpa using hp

theorem collapse_spacing (y : List Char) : ∀ b, okSpacing (collapseGo b y) = true := by
  induction y with
  | nil => intro b; simp [collapseGo, okSpacing]
  | cons a r ih =>
    intro b
    by_cases hp : pyWs a
    · cases b with
      | true =>
        rw [show collapseGo true (a :: r) = collapseGo true r by simp [collapseGo, hp]]
        exact ih true
      | false =>
        rw [show collapseGo false (a :: r) = ' ' :: collapseGo true r by
          simp [collapseGo, hp]]
        unfold okSpacing
        rw [Bool.and_eq_true]
        refine ⟨?_, ih true⟩
        cases hh : (collapseGo true r).head? with
        | none => rfl
        | some d => simp [collapse_head_true r d hh]
    · have hb : ∀ b, collapseGo b (a :: r) = a :: collapseGo false r := by
        intro b; cases b <;> simp [collapseGo, hp]
      rw [hb b]
      unfold okSpacing
      rw [Bool.and_eq_true]
      refine ⟨?_, ih false⟩
      cases hh : (collapseGo false r).head? with
      | none => rfl
      | some d => simp [hp]

theorem collapse_okHead (y : List Char) (h : okHead y = true) :
    okHead (collapseGo false y) = true := by
  cases y with
  | nil => simp [collapseGo, okHead]
  | cons a r =>
    unfold okHead at h
    simp at h
    rw [show collapseGo false (a :: r) = a :: collapseGo false r by
      simp [collapseGo, h]]
    unfold okHead
    simp [h]

theorem collapseGo_true_all_ws (y : List Char) (h : collapseGo true y = []) :
    ∀ x ∈ y, pyWs x = true := by
  induction y with
  | nil => simp
  | cons a r ih =>
    by_cases hp : pyWs a
    · rw [show collapseGo true (a :: r) = collapseGo true r by simp [collapseGo, hp]] at h
      intro x hx
      rcases List.mem_cons.mp hx with hx | hx
      · subst hx; exact hp
      · exact ih h x hx
    · rw [show collapseGo true (a :: r) = a :: collapseGo false r by
        simp [collapseGo, hp]] at h
      simp at h

theorem collapseGo_false_ne_nil (a : Char) (l : List Char) :
    collapseGo false (a :: l) ≠ [] := by
  by_cases hp : pyWs a <;> simp [collapseGo, hp]

theorem okLast_cons (a : Char) (l : List Char) (h : l ≠ []) :
    okLast (a :: l) = okLast l := by
  cases l with
  | nil => simp at h
  | cons b r => unfold okLast; rw [List.getLast?_cons_cons]

theorem getLast?_mem' (l : List Char) (c : Char) (h : l.getLast? = some c) :
    c ∈ l := by
  cases l with
  | nil => simp at h
  | cons a r =>
    have := List.getLast?_eq_getLast (a :: r) (by simp)
    rw [this] at h
    simp at h
    rw [← h]
    exact List.getLast_mem _

theorem collapse_okLast (y : List Char) : ∀ b, okLast y = true →
    okLast (collapseGo b y) = true := by
  induction y with
  | nil => intro b _; cases b <;> simp [collapseGo, okLast]
  | cons a r ih =>
    intro b h
    cases r with
    | nil =>
      unfold okLast at h
      simp at h
      cases b <;> simp [collapseGo, h, okLast]
    | cons d r' =>
      have hlast : okLast (d :: r') = true := by
        rw [← okLast_cons a (d :: r') (by simp)]
        exact h
      by_cases hp : pyWs a
      · cases b with
        | true =>
          rw [show collapseGo true (a :: d :: r') = collapseGo true (d :: r') by
            simp [collapseGo, hp]]
          exact ih true hlast
        | false =>
          rw [show collapseGo false (a :: d :: r') = ' ' :: collapseGo true (d :: r') by
            simp [collapseGo, hp]]
          have hne : collapseGo true (d :: r') ≠ [] := by
            intro hnil
            have hws := collapseGo_true_all_ws (d :: r') hnil
            obtain ⟨c, hc⟩ := Option.isSome_iff_exists.mp
              (by simp : ((d :: r').getLast?).isSome)
            unfold okLast at hlast
            rw [hc] at hlast
            simp at hlast
            exact absurd (hws c (getLast?_mem' _ c hc)) (by simp [hlast])
          rw [okLast_cons _ _ hne]
          exact ih true hlast
      · have hb : collapseGo b (a :: d :: r') = a :: collapseGo false (d :: r') := by
          cases b <;> simp [collapseGo, hp]
        rw [hb, okLast_cons _ _ (collapseGo_false_ne_nil d r')]
        exact ih false hlast

theorem cleanup_ok (part : List Char) :
    okHead (cleanupPart part) = true ∧ okLast (cleanupPart part) = true ∧
      okSpacing (cleanupPart part) = true := by
  unfold cleanupPart collapseWs
  refine ⟨collapse_okHead _ (okHead_strip _), ?_, collapse_spacing _ false⟩
  exact collapse_okLast _ false (okLast_strip _)

theorem songs_ok (v : List Char) (h : v ∈ SONGS_WITH_COMMAS) :
    v ≠ [] ∧ okHead v = true ∧ okLast v = true ∧ okSpacing v = true := by
  simp [SONGS_WITH_COMMAS] at h
  rcases h with h | h | h <;> subst h <;> refine ⟨by decide, by decide, by decide, by decide⟩

/-- Claim C9: every string in the Song Tokenizer's output is non-empty, has no
leading or trailing whitespace, and contains no run of two or more adjacent
whitespace characters. -/
theorem c9_tokens_normalized (s e : List Char) (h : e ∈ parse_songs_from_setlist s) :
    e ≠ [] ∧ okHead e = true ∧ okLast e = true ∧ okSpacing e = true := by
  unfold parse_songs_from_setlist at h
  by_cases hs : pyStrip s = []
  · rw [if_pos hs] at h
    simp at h
  · rw [if_neg hs] at h
    rcases songsFold_mem _ _ _ _ h with hm | ⟨pl, hm⟩ | ⟨hne, part, hp⟩
    · simp at hm
    · have hv := protectSongs_mem s pl e hm
      exact songs_ok e hv
    · subst hp
      exact ⟨hne, cleanup_ok part⟩

def exC9in : String := "A  ->  B"
def exC9a : String := "A"
def exC9b : String := "B"

/-- Witness for C9 at a concrete tokenizer input and output element. -/
theorem c9_witness :
    chs exC9b ∈ parse_songs_from_setlist (chs exC9in) ∧
      (chs exC9b ≠ [] ∧ okHead (chs exC9b) = true ∧ okLast (chs exC9b) = true ∧
        okSpacing (chs exC9b) = true) :=
  ⟨by decide, c9_tokens_normalized (chs exC9in) (chs exC9b) (by decide)⟩

/-!  Claim C2 (amended): the opening delimiter is line-anchored. -/

theorem fmScan_skip_false (p rest : List Char) (hnl : ∀ c ∈ p, c ≠ '\n') :
    fmScan (p ++ rest) false = fmScan rest false := by
  induction p with
  | nil => rfl
  | cons c p' ih =>
    have hstep : fmScan ((c :: p') ++ rest) false =
        fmScan (p' ++ rest) (decide (c = '\n')) := rfl
    have hc : (decide (c = '\n')) = false := by
      simp [hnl c (List.mem_cons_self c p')]
    rw [hstep, hc]
    exact ih (fun d hd => hnl d (List.mem_cons_of_mem c hd))

theorem fmScan_skip (p rest : List Char) (hne : p ≠ [])
    (hnl : ∀ c ∈ p, c ≠ '\n')
    (hpre : ¬ (chs strDashes) <+: (p ++ rest)) :
    fmScan (p ++ rest) true = fmScan rest false := by
  cases p with
  | nil => exact absurd rfl hne
  | cons c p' =>
    have hf : fmHere (c :: (p' ++ rest)) = none := by
      have hb : (chs strDashes).isPrefixOf (c :: (p' ++ rest)) = false := by
        cases hx : (chs strDashes).isPrefixOf (c :: (p' ++ rest)) with
        | false => rfl
        | true => exact absurd (List.isPrefixOf_iff_prefix.mp hx) hpre
      simp [fmHere, hb]
    have hstep : fmScan ((c :: p') ++ rest) true =
        (match fmHere (c :: (p' ++ rest)) with
         | some g => some g
         | none => fmScan (p' ++ rest) (decide (c = '\n'))) := rfl
    have hc : (decide (c = '\n')) = false := by
      simp [hnl c (List.mem_cons_self c p')]
    rw [hstep, hf, hc]
    exact fmScan_skip_false p' rest (fun d hd => hnl d (List.mem_cons_of_mem c hd))

def exC2rest : String := "\n---\ndate: 2023-05-01\n---\n"

/-- Claim C2 (amended): the Frontmatter Parser's opening `---` delimiter is
line-anchored rather than document-anchored: for every non-empty preceding
line `p` that contains no newline and does not itself open with `---`, the
document `p` followed by a newline and a frontmatter block still parses to the
block's key-value mapping, not to the empty mapping. -/
theorem c2_amended (p : List Char) (hne : p ≠ [])
    (hnl : ∀ c ∈ p, c ≠ '\n')
    (hpre : ¬ (chs strDashes) <+: (p ++ chs exC2rest)) :
    parse_obsidian_frontmatter (p ++ chs exC2rest) =
      [(chs strDate, chs exC8date)] := by
  unfold parse_obsidian_frontmatter
  rw [fmScan_skip p (chs exC2rest) hne hnl hpre]
  decide

/-- Witness for the amended C2 with the preceding line `intro`. -/
theorem c2_amended_witness :
    parse_obsidian_frontmatter (chs exC2line0 ++ chs exC2rest) =
      [(chs strDate, chs exC8date)] :=
  c2_amended (chs exC2line0) (by decide) (by decide) (by decide)

/-!  Claim C1 (amended): two-to-three-asterisk headers are recognized. -/

theorem countLeading_cons_ne (c d : Char) (r : List Char) (h : d ≠ c) :
    countLeading c (d :: r) = 0 := by
  simp [countLeading, List.takeWhile_cons, h]

theorem countLeading_replicate_append (n : Nat) (c : Char) (t : List Char) :
    countLeading c (List.replicate n c ++ t) = n + countLeading c t := by
  induction n with
  | zero => simp
  | succ m ih =>
    rw [List.replicate_succ, List.cons_append]
    unfold countLeading at ih ⊢
    rw [List.takeWhile_cons, if_pos (by simp), List.length_cons, ih]
    omega

theorem takeWhile_append_stop (p : Char → Bool) (L : List Char) (x : Char)
    (r : List Char) (hL : ∀ c ∈ L, p c = true) (hx : p x = false) :
    (L ++ x :: r).takeWhile p = L := by
  induction L with
  | nil => simp [List.takeWhile_cons, hx]
  | cons a t ih =>
    rw [List.cons_append, List.takeWhile_cons,
      if_pos (hL a (List.mem_cons_self a t))]
    rw [ih (fun c hc => hL c (List.mem_cons_of_mem a hc))]

theorem getD_mem_of_lt (r : List Char) (k : Nat) (d : Char) (h : k < r.length) :
    r.getD k d ∈ r := by
  rw [List.getD_eq_getElem r d h]
  exact List.getElem_mem h

theorem tryTailAt_isSome (r : List Char) (k : Nat) (hk : k < r.length)
    (hnl : ∀ c ∈ r, c ≠ '\n') : (tryTailAt r k).isSome := by
  have hm := getD_mem_of_lt r k ' ' hk
  have hne := hnl _ hm
  rw [List.getD_eq_getElem r ' ' hk] at hne
  simp [tryTailAt, hk, hne]

theorem tryTailAux_isSome (r : List Char) (hne : r ≠ [])
    (hnl : ∀ c ∈ r, c ≠ '\n') : ∀ k, (tryTailAux r k).isSome := by
  have h0 : 0 < r.length := List.length_pos.mpr hne
  intro k
  induction k with
  | zero => exact tryTailAt_isSome r 0 h0 hnl
  | succ m ih =>
    unfold tryTailAux
    cases ht : tryTailAt r (m + 1) with
    | some v => simp [Option.orElse, ht]
    | none => simpa [Option.orElse, ht] using ih

theorem tryTail_isSome (r : List Char) (hne : r ≠ [])
    (hnl : ∀ c ∈ r, c ≠ '\n') : (tryTail r).isSome :=
  tryTailAux_isSome r hne hnl (wsLen r)

theorem mem_of_mem_drop' (r : List Char) (n : Nat) (c : Char)
    (h : c ∈ r.drop n) : c ∈ r :=
  (List.drop_subset n r) h

theorem matchSetHeader_shape (a b : Nat) (L C : List Char)
    (ha2 : 2 ≤ a) (ha3 : a ≤ 3) (hb2 : 2 ≤ b) (hb3 : b ≤ 3)
    (hL : L ≠ []) (hLc : ∀ c ∈ L, c ≠ '*' ∧ c ≠ ':')
    (hC : C ≠ []) (hCn : ∀ c ∈ C, c ≠ '\n') :
    ∃ content, matchSetHeader
      (List.replicate a '*' ++ (L ++ ':' :: (List.replicate b '*' ++ C))) =
        some (L, content) := by
  have hr2nl : ∀ c ∈ List.replicate b '*' ++ C, c ≠ '\n' := by
    intro c hc
    rcases List.mem_append.mp hc with hc | hc
    · rw [List.eq_of_mem_replicate hc]
      decide
    · exact hCn c hc
  have hr2len : 3 ≤ (List.replicate b '*' ++ C).length := by
    rw [List.length_append, List.length_replicate]
    have := List.length_pos.mpr hC
    omega
  have hnb : b ≤ countLeading '*' (List.replicate b '*' ++ C) := by
    rw [countLeading_replicate_append]
    omega
  obtain ⟨l0, Lt, rfl⟩ := List.exists_cons_of_ne_nil hL
  have hl0 := hLc l0 (List.mem_cons_self _ _)
  have hna : countLeading '*'
      (List.replicate a '*' ++ ((l0 :: Lt) ++ ':' :: (List.replicate b '*' ++ C))) = a := by
    rw [countLeading_replicate_append, List.cons_append,
      countLeading_cons_ne '*' l0 _ hl0.1]
    omega
  have hbody : ∃ content,
      (match tryTail ((List.replicate b '*' ++ C).drop
          (min (countLeading '*' (List.replicate b '*' ++ C)) 3)) with
       | some ct => some ((l0 :: Lt : List Char), ct)
       | none =>
         if 3 ≤ countLeading '*' (List.replicate b '*' ++ C) then
           match tryTail ((List.replicate b '*' ++ C).drop 2) with
           | some ct => some ((l0 :: Lt : List Char), ct)
           | none => none
         else none) = some (l0 :: Lt, content) := by
    cases htt : tryTail ((List.replicate b '*' ++ C).drop
        (min (countLeading '*' (List.replicate b '*' ++ C)) 3)) with
    | some ct => exact ⟨ct, rfl⟩
    | none =>
      by_cases hdn : (List.replicate b '*' ++ C).drop
          (min (countLeading '*' (List.replicate b '*' ++ C)) 3) = []
      · have hlen := List.drop_eq_nil_iff.mp hdn
        have h3 : 3 ≤ countLeading '*' (List.replicate b '*' ++ C) := by
          rcases Nat.lt_or_ge (countLeading '*' (List.replicate b '*' ++ C)) 3 with hlt | hge
          · rw [min_eq_left (le_of_lt hlt)] at hlen
            omega
          · exact hge
        have hne2 : (List.replicate b '*' ++ C).drop 2 ≠ [] := by
          intro hx
          have := List.drop_eq_nil_iff.mp hx
          omega
        obtain ⟨ct, hct⟩ := Option.isSome_iff_exists.mp
          (tryTail_isSome _ hne2 (fun c hc => hr2nl c (mem_of_mem_drop' _ _ _ hc)))
        exact ⟨ct, by rw [if_pos h3, hct]⟩
      · obtain ⟨ct, hct⟩ := Option.isSome_iff_exists.mp
          (tryTail_isSome _ hdn (fun c hc => hr2nl c (mem_of_mem_drop' _ _ _ hc)))
        rw [htt] at hct
        exact absurd hct (by simp)
  obtain ⟨ct, hct⟩ := hbody
  refine ⟨ct, ?_⟩
  simp only [matchSetHeader]
  rw [hna, if_neg (show ¬ a < 2 by omega), min_eq_left ha3]
  rw [show List.drop a
      (List.replicate a '*' ++ ((l0 :: Lt) ++ ':' :: (List.replicate b '*' ++ C))) =
        (l0 :: Lt) ++ ':' :: (List.replicate b '*' ++ C) from by
    have := List.drop_left (List.replicate a '*')
      ((l0 :: Lt) ++ ':' :: (List.replicate b '*' ++ C))
    rwa [List.length_replicate] at this]
  rw [takeWhile_append_stop _ (l0 :: Lt) ':' _
    (fun c hc => by
      have := hLc c hc
      simp [this.1, this.2])
    (by simp)]
  rw [if_neg (show ¬ (l0 :: Lt : List Char) = [] by simp)]
  rw [List.drop_left (l0 :: Lt) (':' :: (List.replicate b '*' ++ C))]
  simp only [List.head?_cons, List.tail_cons]
  rw [if_pos trivial]
  rw [if_neg (show ¬ countLeading '*' (List.replicate b '*' ++ C) < 2 by omega)]
  exact hct

theorem assocSet_cons_pos {β : Type} (k0 : List Char) (v0 : β)
    (rest : List (List Char × β)) (k : List Char) (v : β) (h : k0 = k) :
    assocSet ((k0, v0) :: rest) k v = (k, v) :: rest := by
  simp only [assocSet]
  rw [if_pos h]

theorem assocSet_cons_neg {β : Type} (k0 : List Char) (v0 : β)
    (rest : List (List Char × β)) (k : List Char) (v : β) (h : ¬ k0 = k) :
    assocSet ((k0, v0) :: rest) k v = (k0, v0) :: assocSet rest k v := by
  simp only [assocSet]
  rw [if_neg h]

theorem mem_keys_assocSet {β : Type} (db : List (List Char × β)) (k : List Char)
    (v : β) : k ∈ (assocSet db k v).map Prod.fst := by
  induction db with
  | nil => exact List.mem_singleton_self k
  | cons p rest ih =>
    obtain ⟨k0, v0⟩ := p
    by_cases h : k0 = k
    · rw [assocSet_cons_pos k0 v0 rest k v h, List.map_cons]
      exact List.mem_cons_self _ _
    · rw [assocSet_cons_neg k0 v0 rest k v h, List.map_cons]
      exact List.mem_cons_of_mem _ ih

theorem mem_keys_assocSet_of_mem {β : Type} (db : List (List Char × β))
    (k k' : List Char) (v : β) (h : k' ∈ db.map Prod.fst) :
    k' ∈ (assocSet db k v).map Prod.fst := by
  induction db with
  | nil => simp at h
  | cons p rest ih =>
    obtain ⟨k0, v0⟩ := p
    rw [List.map_cons] at h
    by_cases hk : k0 = k
    · rw [assocSet_cons_pos k0 v0 rest k v hk, List.map_cons]
      rcases List.mem_cons.mp h with h0 | h0
      · rw [h0, ← hk]
        exact List.mem_cons_self _ _
      · exact List.mem_cons_of_mem _ h0
    · rw [assocSet_cons_neg k0 v0 rest k v hk, List.map_cons]
      rcases List.mem_cons.mp h with h0 | h0
      · rw [h0]
        exact List.mem_cons_self _ _
      · exact List.mem_cons_of_mem _ (ih h0)

theorem keys_foldl_setlistStep_mono (lines : List (List Char))
    (sets : List (List Char × List Char)) (k : List Char)
    (h : k ∈ sets.map Prod.fst) :
    k ∈ (lines.foldl setlistStep sets).map Prod.fst := by
  induction lines generalizing sets with
  | nil => simpa using h
  | cons l ls ih =>
    rw [List.foldl_cons]
    apply ih
    unfold setlistStep
    by_cases hl : pyStrip l = []
    · simpa [hl] using h
    · rw [if_neg hl]
      cases hm : matchSetHeader (pyStrip l) with
      | none => exact h
      | some p =>
        obtain ⟨lab, c⟩ := p
        exact mem_keys_assocSet_of_mem sets (pyStrip lab) k (clean_wiki_links c) h

theorem key_mem_foldl_setlistStep (lines : List (List Char))
    (sets : List (List Char × List Char)) (line lab ct : List Char)
    (hline : line ∈ lines)
    (hm : matchSetHeader (pyStrip line) = some (lab, ct)) :
    pyStrip lab ∈ (lines.foldl setlistStep sets).map Prod.fst := by
  induction lines generalizing sets with
  | nil => simp at hline
  | cons l ls ih =>
    rcases List.mem_cons.mp hline with hl | hl
    · subst hl
      rw [List.foldl_cons]
      apply keys_foldl_setlistStep_mono
      have hne : pyStrip line ≠ [] := by
        intro hx
        rw [hx] at hm
        have hnone : matchSetHeader [] = none := by decide
        rw [hnone] at hm
        exact Option.noConfusion hm
      unfold setlistStep
      rw [if_neg hne, hm]
      exact mem_keys_assocSet sets (pyStrip lab) _
    · rw [List.foldl_cons]
      exact ih (setlistStep sets l) hl

/-- Claim C1 (amended): in the setlist region, every trimmed non-blank line of
the form two-to-three leading asterisks, a nonempty label with no colon or
asterisk, a colon, two-to-three closing asterisks, then content, is recognized
as a section header (with that label as the label group) and produces a
Section Map entry under the trimmed label.  Single-asterisk headers are not
recognized. -/
theorem c1_amended (content line : List Char) (a b : Nat) (L C : List Char)
    (hline : line ∈ setlistRegionLines content)
    (hshape : pyStrip line =
      List.replicate a '*' ++ (L ++ ':' :: (List.replicate b '*' ++ C)))
    (ha2 : 2 ≤ a) (ha3 : a ≤ 3) (hb2 : 2 ≤ b) (hb3 : b ≤ 3)
    (hL : L ≠ []) (hLc : ∀ c ∈ L, c ≠ '*' ∧ c ≠ ':')
    (hC : C ≠ []) (hCn : ∀ c ∈ C, c ≠ '\n') :
    (∃ ct, matchSetHeader (pyStrip line) = some (L, ct)) ∧
      pyStrip L ∈ (parse_obsidian_setlist content).map Prod.fst := by
  obtain ⟨ct, hm⟩ := matchSetHeader_shape a b L C ha2 ha3 hb2 hb3 hL hLc hC hCn
  have hm' : matchSetHeader (pyStrip line) = some (L, ct) := by
    rw [hshape]
    exact hm
  refine ⟨⟨ct, hm'⟩, ?_⟩
  unfold parse_obsidian_setlist
  by_cases hmk : (markerIdxs (pySplitlines content)).length < 2
  · exfalso
    have hempty : setlistRegionLines content = [] := by
      simp [setlistRegionLines, hmk]
    rw [hempty] at hline
    simp at hline
  · rw [if_neg hmk]
    exact key_mem_foldl_setlistStep _ [] line L ct hline hm'

def exC1wdoc : String := "---\nx\n---\n**Set 1:** Song A"
def exC1wline : String := "**Set 1:** Song A"
def exC1wlab : String := "Set 1"
def exC1wC : String := " Song A"

/-- Witness for the amended C1 at a concrete two-asterisk header line. -/
theorem c1_amended_witness :
    (∃ ct, matchSetHeader (pyStrip (chs exC1wline)) = some (chs exC1wlab, ct)) ∧
      pyStrip (chs exC1wlab) ∈ (parse_obsidian_setlist (chs exC1wdoc)).map Prod.fst :=
  c1_amended (chs exC1wdoc) (chs exC1wline) 2 2 (chs exC1wlab) (chs exC1wC)
    (by decide) (by decide) (by decide) (by decide) (by decide) (by decide)
    (by decide) (by decide) (by decide) (by decide)

end SF

namespace SF

theorem subScanAux_nil (tryM : List Char → Option (List Char × List Char)) (fuel : Nat) :
    subScanAux tryM fuel [] = [] := by
  cases fuel <;> rfl

theorem subScanAux_cons (tryM : List Char → Option (List Char × List Char))
    (fuel : Nat) (c : Char) (r : List Char) :
    subScanAux tryM (fuel + 1) (c :: r) =
      (match tryM (c :: r) with
       | some (repl, rest) => repl ++ subScanAux tryM fuel (r.drop (r.length - rest.length))
       | none => c :: subScanAux tryM fuel r) := rfl

theorem subScanAux_cons_none (tryM : List Char → Option (List Char × List Char))
    (fuel : Nat) (c : Char) (r : List Char) (h : tryM (c :: r) = none) :
    subScanAux tryM (fuel + 1) (c :: r) = c :: subScanAux tryM fuel r := by
  rw [subScanAux_cons, h]

theorem subScanAux_cons_some (tryM : List Char → Option (List Char × List Char))
    (fuel : Nat) (c : Char) (r repl rest : List Char)
    (h : tryM (c :: r) = some (repl, rest)) :
    subScanAux tryM (fuel + 1) (c :: r) =
      repl ++ subScanAux tryM fuel (r.drop (r.length - rest.length)) := by
  rw [subScanAux_cons, h]

theorem subScanAux_fuel_congr (tryM : List Char → Option (List Char × List Char)) :
    ∀ (n : Nat) (s : List Char), s.length ≤ n →
      ∀ f1 f2 : Nat, s.length ≤ f1 → s.length ≤ f2 →
        subScanAux tryM f1 s = subScanAux tryM f2 s := by
  intro n
  induction n with
  | zero =>
    intro s hs f1 f2 _ _
    have hnil : s = [] := List.length_eq_zero.mp (Nat.le_zero.mp hs)
    subst hnil
    rw [subScanAux_nil, subScanAux_nil]
  | succ n ih =>
    intro s hs f1 f2 h1 h2
    cases s with
    | nil => rw [subScanAux_nil, subScanAux_nil]
    | cons c r =>
      rw [List.length_cons] at hs h1 h2
      cases f1 with
      | zero => omega
      | succ g1 =>
        cases f2 with
        | zero => omega
        | succ g2 =>
          cases hm : tryM (c :: r) with
          | none =>
            rw [subScanAux_cons_none tryM g1 c r hm, subScanAux_cons_none tryM g2 c r hm]
            rw [ih r (by omega) g1 g2 (by omega) (by omega)]
          | some p =>
            obtain ⟨repl, rest⟩ := p
            rw [subScanAux_cons_some tryM g1 c r repl rest hm,
              subScanAux_cons_some tryM g2 c r repl rest hm]
            have hlen : (r.drop (r.length - rest.length)).length ≤ r.length := by
              rw [List.length_drop]; omega
            rw [ih (r.drop (r.length - rest.length)) (by omega) g1 g2 (by omega) (by omega)]

theorem pySub_nil (tryM : List Char → Option (List Char × List Char)) :
    pySub tryM [] = [] := rfl

theorem pySub_skip (tryM : List Char → Option (List Char × List Char))
    (X s : List Char)
    (hnone : ∀ i, i < X.length → tryM (X.drop i ++ s) = none) :
    pySub tryM (X ++ s) = X ++ pySub tryM s := by
  induction X with
  | nil => simp
  | cons c X' ih =>
    show subScanAux tryM ((c :: X') ++ s).length ((c :: X') ++ s) = _
    rw [List.cons_append, List.length_cons]
    have h0 : tryM (c :: (X' ++ s)) = none := by
      have h := hnone 0 (by simp)
      rw [List.drop_zero, List.cons_append] at h
      exact h
    rw [subScanAux_cons_none tryM _ c (X' ++ s) h0]
    have ih' := ih (fun i hi => by
      have h := hnone (i + 1) (by simp; omega)
      rw [List.drop_succ_cons] at h
      exact h)
    rw [show subScanAux tryM (X' ++ s).length (X' ++ s) = pySub tryM (X' ++ s) from rfl, ih']
    rw [List.cons_append]

theorem pySub_id (tryM : List Char → Option (List Char × List Char)) (T : List Char)
    (hnone : ∀ i, i < T.length → tryM (T.drop i) = none) :
    pySub tryM T = T := by
  have h := pySub_skip tryM T [] (fun i hi => by
    rw [List.append_nil]; exact hnone i hi)
  rw [List.append_nil] at h
  rw [h, pySub_nil, List.append_nil]

theorem pySub_skip_match (tryM : List Char → Option (List Char × List Char))
    (X M B repl : List Char) (hM : M ≠ [])
    (hnone : ∀ i, i < X.length → tryM (X.drop i ++ (M ++ B)) = none)
    (hmatch : tryM (M ++ B) = some (repl, B)) :
    pySub tryM (X ++ (M ++ B)) = X ++ (repl ++ pySub tryM B) := by
  rw [pySub_skip tryM X (M ++ B) hnone]
  congr 1
  obtain ⟨m, M', rfl⟩ := List.exists_cons_of_ne_nil hM
  show subScanAux tryM ((m :: M') ++ B).length ((m :: M') ++ B) = _
  rw [List.cons_append, List.length_cons]
  rw [subScanAux_cons_some tryM _ m (M' ++ B) repl B
    (by rw [← List.cons_append]; exact hmatch)]
  congr 1
  have hdrop : (M' ++ B).drop ((M' ++ B).length - B.length) = B := by
    rw [List.length_append, Nat.add_sub_cancel]
    exact List.drop_left M' B
  rw [hdrop]
  exact subScanAux_fuel_congr tryM (M' ++ B).length B
    (by rw [List.length_append]; omega) _ _
    (by rw [List.length_append]; omega) le_rfl

end SF

namespace SF

theorem dropWhile_append_ne_nil (p : Char → Bool) (X s : List Char)
    (h : X.dropWhile p ≠ []) :
    (X ++ s).dropWhile p = X.dropWhile p ++ s := by
  induction X with
  | nil => simp at h
  | cons c X' ih =>
    by_cases hp : p c
    · rw [List.cons_append]
      simp only [List.dropWhile_cons_of_pos hp]
      rw [List.dropWhile_cons_of_pos hp] at h
      exact ih h
    · rw [List.cons_append]
      simp only [List.dropWhile_cons_of_neg hp]
      rw [List.cons_append]

theorem dropWhile_all_append (p : Char → Bool) (sp y : List Char)
    (h : ∀ c ∈ sp, p c = true) :
    (sp ++ y).dropWhile p = y.dropWhile p := by
  induction sp with
  | nil => rfl
  | cons c sp' ih =>
    rw [List.cons_append, List.dropWhile_cons_of_pos (h c (List.mem_cons_self c sp'))]
    exact ih (fun d hd => h d (List.mem_cons_of_mem c hd))

theorem dropWhile_ne_nil_of_last (p : Char → Bool) (X : List Char) (c : Char)
    (hl : X.getLast? = some c) (hc : p c = false) : X.dropWhile p ≠ [] := by
  intro h
  have hall := List.dropWhile_eq_nil_iff.mp h
  have hm := getLast?_mem' X c hl
  rw [hall c hm] at hc
  exact Bool.noConfusion hc

theorem head?_dropWhile_mem (p : Char → Bool) (X : List Char) (x : Char)
    (h : (X.dropWhile p).head? = some x) : x ∈ X := by
  have hx : x ∈ X.dropWhile p := by
    cases hd : X.dropWhile p with
    | nil => rw [hd] at h; exact Option.noConfusion h
    | cons a t =>
      rw [hd] at h
      simp at h
      rw [← h]
      exact List.mem_cons_self a t
  exact (List.dropWhile_suffix p).subset hx

theorem getLastq_append_right (l₁ l₂ : List Char) (h : l₂ ≠ []) :
    (l₁ ++ l₂).getLast? = l₂.getLast? := by
  induction l₁ with
  | nil => rfl
  | cons c l₁' ih =>
    cases hX : l₁' ++ l₂ with
    | nil => exact absurd (List.append_eq_nil.mp hX).2 h
    | cons b t =>
      rw [List.cons_append, hX, List.getLast?_cons_cons, ← hX, ih]

theorem getLast?_drop_eq (X : List Char) (i : Nat) (hi : i < X.length) :
    (X.drop i).getLast? = X.getLast? := by
  have hne : X.drop i ≠ [] := by
    intro h
    have := List.drop_eq_nil_iff.mp h
    omega
  conv_rhs => rw [← List.take_append_drop i X]
  rw [getLastq_append_right (X.take i) (X.drop i) hne]

theorem firstNonWs_spec (X s : List Char) (i : Nat) (hi : i < X.length) (c0 : Char)
    (hlast : X.getLast? = some c0) (hc0 : pyWs c0 = false) :
    ∃ x, ((X.drop i ++ s).dropWhile pyWs).head? = some x ∧ x ∈ X ∧ pyWs x = false := by
  have hld : (X.drop i).getLast? = some c0 := by rw [getLast?_drop_eq X i hi, hlast]
  have hne : (X.drop i).dropWhile pyWs ≠ [] := dropWhile_ne_nil_of_last pyWs _ c0 hld hc0
  rw [dropWhile_append_ne_nil pyWs _ s hne]
  cases hY : (X.drop i).dropWhile pyWs with
  | nil => exact absurd hY hne
  | cons a t =>
    refine ⟨a, by rw [List.cons_append]; rfl, ?_, ?_⟩
    · exact (List.drop_subset i X) (head?_dropWhile_mem pyWs (X.drop i) a (by rw [hY]; rfl))
    · exact head?_dropWhile pyWs (X.drop i) a (by rw [hY]; rfl)

theorem okLast_some (X : List Char) (c0 : Char) (hl : X.getLast? = some c0)
    (h : okLast X = true) : pyWs c0 = false := by
  unfold okLast at h
  rw [hl] at h
  simpa using h

theorem parenCore_none (S : List Char)
    (h : ¬ ((S.dropWhile pyWs).head? = some '(')) : parenCore S = none := by
  simp only [parenCore]
  rw [if_neg h]

theorem brackCore_none (S : List Char)
    (h : ¬ ((S.dropWhile pyWs).head? = some '[')) : brackCore S = none := by
  simp only [brackCore]
  rw [if_neg h]

theorem getLast?_ne_none (X : List Char) (hne : X ≠ []) : ∃ c0, X.getLast? = some c0 := by
  cases hL : X.getLast? with
  | none =>
    rw [List.getLast?_eq_none_iff] at hL
    exact absurd hL hne
  | some c0 => exact ⟨c0, rfl⟩

theorem parenSub_none_in_prefix (X s : List Char) (i : Nat) (hi : i < X.length)
    (hq : '(' ∉ X) (hlast : okLast X = true) :
    parenSub (X.drop i ++ s) = none := by
  have hXne : X ≠ [] := by
    intro h; rw [h] at hi; simp at hi
  obtain ⟨c0, hL⟩ := getLast?_ne_none X hXne
  obtain ⟨x, hx, hxm, _⟩ := firstNonWs_spec X s i hi c0 hL (okLast_some X c0 hL hlast)
  have hxq : x ≠ '(' := fun he => hq (he ▸ hxm)
  rw [parenSub, parenCore_none _ (by rw [hx]; intro hcon; exact hxq (by simpa using hcon))]
  rfl

theorem brackSub_none_in_prefix (X s : List Char) (i : Nat) (hi : i < X.length)
    (hq : '[' ∉ X) (hlast : okLast X = true) :
    brackSub (X.drop i ++ s) = none := by
  have hXne : X ≠ [] := by
    intro h; rw [h] at hi; simp at hi
  obtain ⟨c0, hL⟩ := getLast?_ne_none X hXne
  obtain ⟨x, hx, hxm, _⟩ := firstNonWs_spec X s i hi c0 hL (okLast_some X c0 hL hlast)
  have hxq : x ≠ '[' := fun he => hq (he ▸ hxm)
  rw [brackSub, brackCore_none _ (by rw [hx]; intro hcon; exact hxq (by simpa using hcon))]
  rfl

end SF

namespace SF

/-- The last character, if any, is neither a decimal digit nor a newline. -/
def lastNoTrail (l : List Char) : Bool :=
  match l.getLast? with
  | some c => !(c.isDigit) && !(c = '\n')
  | none => true

theorem lastNoTrail_some (A : List Char) (c0 : Char) (hl : A.getLast? = some c0)
    (h : lastNoTrail A = true) : c0.isDigit = false ∧ c0 ≠ '\n' := by
  unfold lastNoTrail at h
  rw [hl] at h
  simp at h
  exact ⟨h.1, h.2⟩

theorem not_mem_of_all (p : Char → Bool) (c : Char) (hc : p c = false)
    (l : List Char) (h : ∀ x ∈ l, p x = true) : c ∉ l := by
  intro hm
  rw [h c hm] at hc
  exact Bool.noConfusion hc

theorem pyWs_isDigit_false (c : Char) (h : pyWs c = true) : c.isDigit = false := by
  simp only [pyWs, Bool.or_eq_true, decide_eq_true_eq, or_assoc] at h
  rcases h with h|h|h|h|h|h|h|h|h|h|h|h|h|h|h|h|h|h|h|h|h|h|h|h|h|h|h|h|h <;>
    subst h <;> decide

theorem pyWs_dc_false (c : Char) (h : pyWs c = true) :
    (c.isDigit || c = ':') = false := by
  simp only [pyWs, Bool.or_eq_true, decide_eq_true_eq, or_assoc] at h
  rcases h with h|h|h|h|h|h|h|h|h|h|h|h|h|h|h|h|h|h|h|h|h|h|h|h|h|h|h|h|h <;>
    subst h <;> decide

theorem isDigit_pyWs_false (c : Char) (h : c.isDigit = true) : pyWs c = false := by
  cases hw : pyWs c with
  | false => rfl
  | true => rw [pyWs_isDigit_false c hw] at h; exact Bool.noConfusion h

theorem getLastq_of_suffix (l t : List Char) (h : t <:+ l) (hne : t ≠ []) :
    t.getLast? = l.getLast? := by
  obtain ⟨pre, rfl⟩ := h
  rw [getLastq_append_right pre t hne]

theorem parenCore_junction (sp ds B : List Char)
    (hsp : ∀ c ∈ sp, pyWs c = true) (hds : ds ≠ [])
    (hd0 : (ds.headD '!').isDigit = true)
    (hdc : ∀ c ∈ ds, (c.isDigit || c = ':') = true) :
    parenCore (sp ++ '(' :: (ds ++ ')' :: B)) = some B := by
  obtain ⟨d, ds', rfl⟩ := List.exists_cons_of_ne_nil hds
  have hd' : d.isDigit = true := by simpa using hd0
  have h1 : (sp ++ '(' :: ((d :: ds') ++ ')' :: B)).dropWhile pyWs
      = '(' :: ((d :: ds') ++ ')' :: B) := by
    rw [dropWhile_all_append pyWs sp _ hsp]
    exact List.dropWhile_cons_of_neg (by decide)
  have h2 : ((d :: ds') ++ ')' :: B).dropWhile (fun c => c.isDigit || c = ':')
      = ')' :: B := by
    rw [dropWhile_all_append _ (d :: ds') _ hdc]
    exact List.dropWhile_cons_of_neg (by decide)
  have h3 : ((d :: ds') ++ ')' :: B).head? = some d := by
    rw [List.cons_append]; rfl
  simp only [parenCore, h1, List.head?_cons, List.tail_cons]
  rw [if_pos trivial, h3]
  show (if d.isDigit = true then
      (if ((d :: ds' ++ ')' :: B).dropWhile (fun c => c.isDigit || c = ':')).head? = some ')'
        then some (((d :: ds' ++ ')' :: B).dropWhile (fun c => c.isDigit || c = ':')).tail)
        else none)
    else none) = some B
  rw [if_pos hd', h2]
  simp

theorem brackCore_junction (sp1 sp2 ds sp3 B : List Char)
    (hsp1 : ∀ c ∈ sp1, pyWs c = true) (hsp2 : ∀ c ∈ sp2, pyWs c = true)
    (hsp3 : ∀ c ∈ sp3, pyWs c = true) (hds : ds ≠ [])
    (hd0 : (ds.headD '!').isDigit = true)
    (hdc : ∀ c ∈ ds, (c.isDigit || c = ':') = true) :
    brackCore (sp1 ++ '[' :: (sp2 ++ (ds ++ (sp3 ++ ']' :: B)))) = some B := by
  obtain ⟨d, ds', rfl⟩ := List.exists_cons_of_ne_nil hds
  have hd' : d.isDigit = true := by simpa using hd0
  have h1 : (sp1 ++ '[' :: (sp2 ++ ((d :: ds') ++ (sp3 ++ ']' :: B)))).dropWhile pyWs
      = '[' :: (sp2 ++ ((d :: ds') ++ (sp3 ++ ']' :: B))) := by
    rw [dropWhile_all_append pyWs sp1 _ hsp1]
    exact List.dropWhile_cons_of_neg (by decide)
  have h2 : (sp2 ++ ((d :: ds') ++ (sp3 ++ ']' :: B))).dropWhile pyWs
      = (d :: ds') ++ (sp3 ++ ']' :: B) := by
    rw [dropWhile_all_append pyWs sp2 _ hsp2, List.cons_append,
      List.dropWhile_cons_of_neg]
    intro hcon
    rw [pyWs_isDigit_false d hcon] at hd'
    exact Bool.noConfusion hd'
  have h3 : ((d :: ds') ++ (sp3 ++ ']' :: B)).head? = some d := by
    rw [List.cons_append]; rfl
  have h4 : ((d :: ds') ++ (sp3 ++ ']' :: B)).dropWhile (fun c => c.isDigit || c = ':')
      = sp3 ++ ']' :: B := by
    rw [dropWhile_all_append _ (d :: ds') _ hdc]
    cases sp3 with
    | nil => exact List.dropWhile_cons_of_neg (by decide)
    | cons w sp3' =>
      rw [List.cons_append]
      exact List.dropWhile_cons_of_neg (by
        intro hcon
        have := pyWs_dc_false w (hsp3 w (List.mem_cons_self _ _))
        rw [hcon] at this
        exact Bool.noConfusion this)
  have h5 : (sp3 ++ ']' :: B).dropWhile pyWs = ']' :: B := by
    rw [dropWhile_all_append pyWs sp3 _ hsp3]
    exact List.dropWhile_cons_of_neg (by decide)
  simp only [brackCore, h1, List.head?_cons, List.tail_cons]
  rw [if_pos trivial, h2, h3]
  show (if d.isDigit = true then
      (if ((((d :: ds') ++ (sp3 ++ ']' :: B)).dropWhile
            (fun c => c.isDigit || c = ':')).dropWhile pyWs).head? = some ']'
        then some (((((d :: ds') ++ (sp3 ++ ']' :: B)).dropWhile
            (fun c => c.isDigit || c = ':')).dropWhile pyWs).tail)
        else none)
    else none) = some B
  rw [if_pos hd', h4, h5]
  simp

end SF

namespace SF

theorem all_digit_last (A W : List Char) (hsuf : W <:+ A) (hne : W ≠ [])
    (hall : ∀ c ∈ W, c.isDigit = true) (hA : lastNoTrail A = true) : False := by
  obtain ⟨c0, hL⟩ := getLast?_ne_none W hne
  have hmem := getLast?_mem' W c0 hL
  have hAL : A.getLast? = some c0 := (getLastq_of_suffix A W hsuf hne).symm.trans hL
  have hnd := (lastNoTrail_some A c0 hAL hA).1
  rw [hall c0 hmem] at hnd
  exact Bool.noConfusion hnd

theorem newline_last (A W : List Char) (hsuf : W <:+ A) (hW : W = ['\n'])
    (hA : lastNoTrail A = true) : False := by
  subst hW
  have hAL : A.getLast? = some '\n' :=
    (getLastq_of_suffix A ['\n'] hsuf (by simp)).symm.trans (by decide)
  exact absurd rfl (lastNoTrail_some A '\n' hAL hA).2

theorem tryTrailInt_junction (sp ds : List Char)
    (hsp : sp ≠ []) (hspw : ∀ c ∈ sp, pyWs c = true)
    (hds : ds ≠ []) (hdsd : ∀ c ∈ ds, c.isDigit = true) :
    tryTrailInt (sp ++ ds) = some ([], []) := by
  obtain ⟨c, sp', rfl⟩ := List.exists_cons_of_ne_nil hsp
  obtain ⟨d, ds', rfl⟩ := List.exists_cons_of_ne_nil hds
  have hdw : pyWs d = false := isDigit_pyWs_false d (hdsd d (List.mem_cons_self _ _))
  have hw : (c :: (sp' ++ d :: ds')).dropWhile pyWs = d :: ds' := by
    rw [← List.cons_append, dropWhile_all_append pyWs _ _ hspw]
    exact List.dropWhile_cons_of_neg (by simp [hdw])
  have hdig : (d :: ds').dropWhile Char.isDigit = [] :=
    List.dropWhile_eq_nil_iff.mpr hdsd
  rw [List.cons_append]
  simp only [tryTrailInt]
  rw [if_pos (hspw c (List.mem_cons_self _ _)), hw]
  show (if d.isDigit = true then
      if ((d :: ds').dropWhile Char.isDigit = [] || (d :: ds').dropWhile Char.isDigit = ['\n'])
      then some (([] : List Char), (d :: ds').dropWhile Char.isDigit) else none
    else none) = some ([], [])
  rw [if_pos (hdsd d (List.mem_cons_self _ _)), hdig]
  simp

theorem tryTrailInt_none_of_last (A : List Char) (i : Nat) (_hi : i < A.length)
    (hA : lastNoTrail A = true) : tryTrailInt (A.drop i) = none := by
  cases hT : A.drop i with
  | nil => rfl
  | cons c t =>
    have hTsuf : (c :: t) <:+ A := by rw [← hT]; exact List.drop_suffix i A
    simp only [tryTrailInt]
    by_cases hc : pyWs c = true
    · rw [if_pos hc]
      cases hW : (c :: t).dropWhile pyWs with
      | nil => rfl
      | cons d w =>
        have hWsuf : (d :: w) <:+ A := by
          rw [← hW]; exact (List.dropWhile_suffix pyWs).trans hTsuf
        show (if d.isDigit = true then
            if ((d :: w).dropWhile Char.isDigit = [] ||
                (d :: w).dropWhile Char.isDigit = ['\n'])
            then some (([] : List Char), (d :: w).dropWhile Char.isDigit) else none
          else none) = none
        by_cases hd : d.isDigit = true
        · have hr2suf : ((d :: w).dropWhile Char.isDigit) <:+ A :=
            (List.dropWhile_suffix Char.isDigit).trans hWsuf
          have hr2ne : (d :: w).dropWhile Char.isDigit ≠ [] := by
            intro h0
            exact all_digit_last A (d :: w) hWsuf (by simp)
              (List.dropWhile_eq_nil_iff.mp h0) hA
          have hr2nl : (d :: w).dropWhile Char.isDigit ≠ ['\n'] := by
            intro h0
            exact newline_last A _ hr2suf h0 hA
          rw [if_pos hd, if_neg (by simp [hr2ne, hr2nl])]
        · rw [if_neg hd]
    · rw [if_neg hc]

theorem tryTrailInt_none_in_prefix (A S : List Char) (i : Nat) (hi : i < A.length)
    (hS : 2 ≤ S.length) (hok : okLast A = true) (hA : lastNoTrail A = true) :
    tryTrailInt (A.drop i ++ S) = none := by
  have hAne : A ≠ [] := by intro h; rw [h] at hi; simp at hi
  obtain ⟨c0, hL⟩ := getLast?_ne_none A hAne
  have hc0 : pyWs c0 = false := okLast_some A c0 hL hok
  cases hT : A.drop i with
  | nil =>
    have := List.drop_eq_nil_iff.mp hT
    omega
  | cons c t =>
    have hTsuf : (c :: t) <:+ A := by rw [← hT]; exact List.drop_suffix i A
    have hld : (c :: t).getLast? = some c0 := by
      rw [getLastq_of_suffix A (c :: t) hTsuf (by simp), hL]
    have hWne : (c :: t).dropWhile pyWs ≠ [] :=
      dropWhile_ne_nil_of_last pyWs (c :: t) c0 hld hc0
    have hWapp : ((c :: t) ++ S).dropWhile pyWs = (c :: t).dropWhile pyWs ++ S :=
      dropWhile_append_ne_nil pyWs (c :: t) S hWne
    obtain ⟨x, w, hW⟩ := List.exists_cons_of_ne_nil hWne
    have hWsuf : (x :: w) <:+ A := by
      rw [← hW]; exact (List.dropWhile_suffix pyWs).trans hTsuf
    rw [List.cons_append]
    simp only [tryTrailInt]
    by_cases hc : pyWs c = true
    · rw [if_pos hc]
      have hWapp2 : (c :: (t ++ S)).dropWhile pyWs = x :: (w ++ S) := by
        rw [← List.cons_append, hWapp, hW, List.cons_append]
      rw [hWapp2]
      show (if x.isDigit = true then
          if ((x :: (w ++ S)).dropWhile Char.isDigit = [] ||
              (x :: (w ++ S)).dropWhile Char.isDigit = ['\n'])
          then some (([] : List Char), (x :: (w ++ S)).dropWhile Char.isDigit) else none
        else none) = none
      by_cases hx : x.isDigit = true
      · have hDne : (x :: w).dropWhile Char.isDigit ≠ [] := by
          intro h0
          exact all_digit_last A (x :: w) hWsuf (by simp)
            (List.dropWhile_eq_nil_iff.mp h0) hA
        have hDapp : (x :: (w ++ S)).dropWhile Char.isDigit =
            (x :: w).dropWhile Char.isDigit ++ S := by
          rw [← List.cons_append]
          exact dropWhile_append_ne_nil Char.isDigit (x :: w) S hDne
        have hlen3 : 3 ≤ ((x :: (w ++ S)).dropWhile Char.isDigit).length := by
          rw [hDapp, List.length_append]
          have h1 : 1 ≤ ((x :: w).dropWhile Char.isDigit).length := by
            cases hD : (x :: w).dropWhile Char.isDigit with
            | nil => exact absurd hD hDne
            | cons a b => simp
          omega
        have hne1 : (x :: (w ++ S)).dropWhile Char.isDigit ≠ [] := by
          intro h0; rw [h0] at hlen3; simp at hlen3
        have hne2 : (x :: (w ++ S)).dropWhile Char.isDigit ≠ ['\n'] := by
          intro h0; rw [h0] at hlen3; simp at hlen3
        rw [if_pos hx, if_neg (by simp [hne1, hne2])]
      · rw [if_neg hx]
    · rw [if_neg hc]

theorem parenCore_none_of_not_mem (s : List Char) (h : ('(' : Char) ∉ s) :
    parenCore s = none := by
  apply parenCore_none
  intro hcon
  exact h (head?_dropWhile_mem pyWs s '(' hcon)

theorem brackCore_none_of_not_mem (s : List Char) (h : ('[' : Char) ∉ s) :
    brackCore s = none := by
  apply brackCore_none
  intro hcon
  exact h (head?_dropWhile_mem pyWs s '[' hcon)

theorem pySub_parenSub_id (T : List Char) (h : ('(' : Char) ∉ T) :
    pySub parenSub T = T := by
  apply pySub_id
  intro i hi
  rw [parenSub, parenCore_none_of_not_mem (T.drop i)
    (fun hm => h (List.drop_subset i T hm))]
  rfl

theorem pySub_brackSub_id (T : List Char) (h : ('[' : Char) ∉ T) :
    pySub brackSub T = T := by
  apply pySub_id
  intro i hi
  rw [brackSub, brackCore_none_of_not_mem (T.drop i)
    (fun hm => h (List.drop_subset i T hm))]
  rfl

end SF

namespace SF

/-- The paren-annotation substitution removes an interior parenthesized
numeric/time annotation, and the later cleanup stages then agree. -/
theorem cleanupPart_paren_interior (A sp ds B : List Char)
    (hA : ('(' : Char) ∉ A) (hlast : okLast A = true)
    (hsp : ∀ c ∈ sp, pyWs c = true) (hds : ds ≠ [])
    (hd0 : (ds.headD '!').isDigit = true)
    (hdc : ∀ c ∈ ds, (c.isDigit || c = ':') = true) :
    cleanupPart (A ++ (sp ++ '(' :: (ds ++ ')' :: B))) = cleanupPart (A ++ B) := by
  have hM : (sp ++ '(' :: (ds ++ ([')'] : List Char))) ++ B
      = sp ++ '(' :: (ds ++ ')' :: B) := by
    simp [List.append_assoc]
  have hMne : sp ++ '(' :: (ds ++ ([')'] : List Char)) ≠ [] := by simp
  have hmatch : parenSub ((sp ++ '(' :: (ds ++ ([')'] : List Char))) ++ B)
      = some ([], B) := by
    rw [hM]
    simp only [parenSub]
    rw [parenCore_junction sp ds B hsp hds hd0 hdc]
    rfl
  have h1 : pySub parenSub (A ++ (sp ++ '(' :: (ds ++ ')' :: B)))
      = A ++ pySub parenSub B := by
    rw [← hM]
    rw [pySub_skip_match parenSub A (sp ++ '(' :: (ds ++ ([')'] : List Char))) B []
      hMne
      (fun i hi => parenSub_none_in_prefix A _ i hi hA hlast) hmatch]
    rw [List.nil_append]
  have h2 : pySub parenSub (A ++ B) = A ++ pySub parenSub B :=
    pySub_skip parenSub A B (fun i hi => parenSub_none_in_prefix A B i hi hA hlast)
  simp only [cleanupPart]
  rw [h1, h2]

/-- The bracket-annotation substitution removes an interior bracketed
numeric/time annotation, and the later cleanup stages then agree. -/
theorem cleanupPart_brack_interior (A sp1 sp2 ds sp3 B : List Char)
    (hA1 : ('(' : Char) ∉ A) (hA2 : ('[' : Char) ∉ A) (hlast : okLast A = true)
    (hsp1 : ∀ c ∈ sp1, pyWs c = true) (hsp2 : ∀ c ∈ sp2, pyWs c = true)
    (hds : ds ≠ []) (hd0 : (ds.headD '!').isDigit = true)
    (hdc : ∀ c ∈ ds, (c.isDigit || c = ':') = true)
    (hsp3 : ∀ c ∈ sp3, pyWs c = true) :
    cleanupPart (A ++ (sp1 ++ '[' :: (sp2 ++ (ds ++ (sp3 ++ ']' :: B)))))
      = cleanupPart (A ++ B) := by
  have hre : A ++ (sp1 ++ '[' :: (sp2 ++ (ds ++ (sp3 ++ ']' :: B))))
      = (A ++ (sp1 ++ '[' :: (sp2 ++ (ds ++ (sp3 ++ ([']'] : List Char)))))) ++ B := by
    simp [List.append_assoc]
  have hannsplit : sp1 ++ '[' :: (sp2 ++ (ds ++ (sp3 ++ ([']'] : List Char))))
      = (sp1 ++ '[' :: (sp2 ++ (ds ++ sp3))) ++ ([']'] : List Char) := by
    simp [List.append_assoc]
  have hglann : (sp1 ++ '[' :: (sp2 ++ (ds ++ (sp3 ++ ([']'] : List Char))))).getLast?
      = some ']' := by
    rw [hannsplit, getLastq_append_right _ ([']'] : List Char) (by simp)]
    rfl
  have hok2 : okLast (A ++ (sp1 ++ '[' :: (sp2 ++ (ds ++ (sp3 ++ ([']'] : List Char))))))
      = true := by
    unfold okLast
    rw [getLastq_append_right A _ (by simp), hglann]
    decide
  have hpar : ('(' : Char) ∉
      A ++ (sp1 ++ '[' :: (sp2 ++ (ds ++ (sp3 ++ ([']'] : List Char))))) := by
    simp only [List.mem_append, List.mem_cons, List.mem_singleton, not_or]
    exact ⟨hA1, not_mem_of_all pyWs '(' (by decide) sp1 hsp1, by decide,
      not_mem_of_all pyWs '(' (by decide) sp2 hsp2,
      not_mem_of_all (fun c => c.isDigit || c = ':') '(' (by decide) ds hdc,
      not_mem_of_all pyWs '(' (by decide) sp3 hsp3, by decide⟩
  have h1 : pySub parenSub
      ((A ++ (sp1 ++ '[' :: (sp2 ++ (ds ++ (sp3 ++ ([']'] : List Char)))))) ++ B)
      = (A ++ (sp1 ++ '[' :: (sp2 ++ (ds ++ (sp3 ++ ([']'] : List Char)))))) ++
        pySub parenSub B :=
    pySub_skip parenSub _ B
      (fun i hi => parenSub_none_in_prefix _ B i hi hpar hok2)
  have h1r : pySub parenSub (A ++ B) = A ++ pySub parenSub B :=
    pySub_skip parenSub A B (fun i hi => parenSub_none_in_prefix A B i hi hA1 hlast)
  have hmatch : brackSub ((sp1 ++ '[' :: (sp2 ++ (ds ++ (sp3 ++ ([']'] : List Char)))))
      ++ pySub parenSub B) = some ([], pySub parenSub B) := by
    have hj : (sp1 ++ '[' :: (sp2 ++ (ds ++ (sp3 ++ ([']'] : List Char)))))
        ++ pySub parenSub B
        = sp1 ++ '[' :: (sp2 ++ (ds ++ (sp3 ++ ']' :: pySub parenSub B))) := by
      simp [List.append_assoc]
    rw [hj]
    simp only [brackSub]
    rw [brackCore_junction sp1 sp2 ds sp3 (pySub parenSub B) hsp1 hsp2 hsp3 hds hd0 hdc]
    rfl
  have h2 : pySub brackSub
      ((A ++ (sp1 ++ '[' :: (sp2 ++ (ds ++ (sp3 ++ ([']'] : List Char)))))) ++
        pySub parenSub B)
      = A ++ pySub brackSub (pySub parenSub B) := by
    rw [List.append_assoc]
    rw [pySub_skip_match brackSub A
      (sp1 ++ '[' :: (sp2 ++ (ds ++ (sp3 ++ ([']'] : List Char))))) (pySub parenSub B)
      [] (by simp)
      (fun i hi => brackSub_none_in_prefix A _ i hi hA2 hlast) hmatch]
    rw [List.nil_append]
  have h2r : pySub brackSub (A ++ pySub parenSub B)
      = A ++ pySub brackSub (pySub parenSub B) :=
    pySub_skip brackSub A _ (fun i hi => brackSub_none_in_prefix A _ i hi hA2 hlast)
  simp only [cleanupPart]
  rw [hre, h1, h2, h1r, h2r]

/-- The trailing-integer substitution removes a final whitespace-separated run
of digits, and the earlier and later cleanup stages then agree. -/
theorem cleanupPart_trailing_int (A sp ds : List Char)
    (hA1 : ('(' : Char) ∉ A) (hA2 : ('[' : Char) ∉ A)
    (hok : okLast A = true) (hnd : lastNoTrail A = true)
    (hsp : sp ≠ []) (hspw : ∀ c ∈ sp, pyWs c = true)
    (hds : ds ≠ []) (hdsd : ∀ c ∈ ds, c.isDigit = true) :
    cleanupPart (A ++ (sp ++ ds)) = cleanupPart A := by
  have hpar : ('(' : Char) ∉ A ++ (sp ++ ds) := by
    simp only [List.mem_append, not_or]
    exact ⟨hA1, not_mem_of_all pyWs '(' (by decide) sp hspw,
      not_mem_of_all Char.isDigit '(' (by decide) ds hdsd⟩
  have hbr : ('[' : Char) ∉ A ++ (sp ++ ds) := by
    simp only [List.mem_append, not_or]
    exact ⟨hA2, not_mem_of_all pyWs '[' (by decide) sp hspw,
      not_mem_of_all Char.isDigit '[' (by decide) ds hdsd⟩
  have hlen : 2 ≤ (sp ++ ds).length := by
    rw [List.length_append]
    have h1 : 0 < sp.length := List.length_pos.mpr hsp
    have h2 : 0 < ds.length := List.length_pos.mpr hds
    omega
  have hp1 : pySub parenSub (A ++ (sp ++ ds)) = A ++ (sp ++ ds) :=
    pySub_parenSub_id _ hpar
  have hp2 : pySub brackSub (A ++ (sp ++ ds)) = A ++ (sp ++ ds) :=
    pySub_brackSub_id _ hbr
  have hp3 : pySub tryTrailInt (A ++ (sp ++ ds)) = A := by
    have hmz : (sp ++ ds) ++ ([] : List Char) = sp ++ ds := List.append_nil _
    have hmatch : tryTrailInt ((sp ++ ds) ++ ([] : List Char)) = some ([], []) := by
      rw [hmz]; exact tryTrailInt_junction sp ds hsp hspw hds hdsd
    have hnone : ∀ i, i < A.length →
        tryTrailInt (A.drop i ++ ((sp ++ ds) ++ ([] : List Char))) = none := by
      intro i hi
      rw [hmz]
      exact tryTrailInt_none_in_prefix A (sp ++ ds) i hi hlen hok hnd
    have h := pySub_skip_match tryTrailInt A (sp ++ ds) [] []
      (by intro h0; exact hsp (List.append_eq_nil.mp h0).1) hnone hmatch
    rw [hmz] at h
    rw [h, pySub_nil]
    simp
  have hq1 : pySub parenSub A = A := pySub_parenSub_id A hA1
  have hq2 : pySub brackSub A = A := pySub_brackSub_id A hA2
  have hq3 : pySub tryTrailInt A = A :=
    pySub_id tryTrailInt A (fun i hi => tryTrailInt_none_of_last A i hi hnd)
  simp only [cleanupPart]
  rw [hp1, hp2, hp3, hq1, hq2, hq3]

end SF

namespace SF

/-- Claim C3 (amended): the per-fragment cleanup removes every parenthesized
numeric/time annotation, every bracketed numeric/time annotation, and a
trailing whitespace-separated bare integer, wherever the paren/bracket
annotations occur in the fragment (interior occurrences included, not only
trailing ones): for every fragment of the form prefix ++ annotation ++ rest in
which the prefix contains no opening delimiter of the annotation's kind and
does not end in whitespace (and, for the trailing-integer form, ends the
fragment and follows a prefix not ending in a digit or newline), the cleanup
result equals the cleanup of the fragment with the annotation deleted; in
particular the fragment `"Song (12) Reprise"` tokenizes to
`["Song Reprise"]`, with the interior annotation removed rather than kept. -/
theorem c3_amended :
    (∀ A sp ds B : List Char, ('(' : Char) ∉ A → okLast A = true →
      (∀ c ∈ sp, pyWs c = true) → ds ≠ [] → (ds.headD '!').isDigit = true →
      (∀ c ∈ ds, (c.isDigit || c = ':') = true) →
      cleanupPart (A ++ (sp ++ '(' :: (ds ++ ')' :: B))) = cleanupPart (A ++ B)) ∧
    (∀ A sp1 sp2 ds sp3 B : List Char, ('(' : Char) ∉ A → ('[' : Char) ∉ A →
      okLast A = true →
      (∀ c ∈ sp1, pyWs c = true) → (∀ c ∈ sp2, pyWs c = true) →
      ds ≠ [] → (ds.headD '!').isDigit = true →
      (∀ c ∈ ds, (c.isDigit || c = ':') = true) →
      (∀ c ∈ sp3, pyWs c = true) →
      cleanupPart (A ++ (sp1 ++ '[' :: (sp2 ++ (ds ++ (sp3 ++ ']' :: B)))))
        = cleanupPart (A ++ B)) ∧
    (∀ A sp ds : List Char, ('(' : Char) ∉ A → ('[' : Char) ∉ A →
      okLast A = true → lastNoTrail A = true →
      sp ≠ [] → (∀ c ∈ sp, pyWs c = true) →
      ds ≠ [] → (∀ c ∈ ds, c.isDigit = true) →
      cleanupPart (A ++ (sp ++ ds)) = cleanupPart A) ∧
    parse_songs_from_setlist (chs exC3in) = [chs exC3out] := by
  refine ⟨?_, ?_, ?_, by decide⟩
  · intro A sp ds B h1 h2 h3 h4 h5 h6
    exact cleanupPart_paren_interior A sp ds B h1 h2 h3 h4 h5 h6
  · intro A sp1 sp2 ds sp3 B h1 h2 h3 h4 h5 h6 h7 h8 h9
    exact cleanupPart_brack_interior A sp1 sp2 ds sp3 B h1 h2 h3 h4 h5 h6 h7 h8 h9
  · intro A sp ds h1 h2 h3 h4 h5 h6 h7 h8
    exact cleanupPart_trailing_int A sp ds h1 h2 h3 h4 h5 h6 h7 h8

/-- Witness for the amended claim C3: the three universal conjuncts applied at
concrete fragments, with every hypothesis discharged by evaluation. -/
theorem c3_amended_witness :
    cleanupPart (chs "Song (12) Reprise") = chs "Song Reprise" ∧
    cleanupPart (chs "Song [ 12:30 ] Reprise") = chs "Song Reprise" ∧
    cleanupPart (chs "Tease 12") = chs "Tease" := by
  refine ⟨?_, ?_, ?_⟩
  · have h := c3_amended.1 (chs "Song") (chs " ") (chs "12") (chs " Reprise")
      (by decide) (by decide) (by decide) (by decide) (by decide) (by decide)
    have he : chs "Song" ++ (chs " " ++ '(' :: (chs "12" ++ ')' :: chs " Reprise"))
        = chs "Song (12) Reprise" := by decide
    rw [he] at h
    rw [h]
    decide
  · have h := c3_amended.2.1 (chs "Song") (chs " ") (chs " ") (chs "12:30") (chs " ")
      (chs " Reprise") (by decide) (by decide) (by decide) (by decide) (by decide)
      (by decide) (by decide) (by decide) (by decide)
    have he : chs "Song" ++ (chs " " ++ '[' ::
        (chs " " ++ (chs "12:30" ++ (chs " " ++ ']' :: chs " Reprise"))))
        = chs "Song [ 12:30 ] Reprise" := by decide
    rw [he] at h
    rw [h]
    decide
  · have h := c3_amended.2.2.1 (chs "Tease") (chs " ") (chs "12")
      (by decide) (by decide) (by decide) (by decide) (by decide) (by decide)
      (by decide) (by decide)
    have he : chs "Tease" ++ (chs " " ++ chs "12") = chs "Tease 12" := by decide
    rw [he] at h
    rw [h]
    decide

/-- The separator strings of the Song Tokenizer: the three split separators and
the five arrow forms that are first rewritten to commas. -/
def SEP_STRINGS : List (List Char) :=
  [chs ",", chs ";", chs "|", chs "->", chs ">", chs "→", chs "–", chs "—"]

set_option maxHeartbeats 1600000 in
/-- Claim C4 (amended): each of the three protected comma-containing titles,
given as a whole setlist, is returned verbatim as the single list element; and
for every separator form of the tokenizer (comma, semicolon, pipe, and the
arrows `->`, `>`, `→`, `–`, `—`), a setlist in which the title
`April 29, 1992 (Miami)` appears as a complete separator-delimited fragment
between two other songs yields exactly the three songs, the title verbatim
among them. An occurrence embedded inside a larger token is instead replaced
by a placeholder that is never restored, so the title is not returned there
(the counterexample). -/
theorem c4_amended :
    (∀ song ∈ SONGS_WITH_COMMAS, parse_songs_from_setlist song = [song]) ∧
    (∀ sep ∈ SEP_STRINGS,
      parse_songs_from_setlist
        (chs "Song X " ++ sep ++ chs " " ++ chs songMiami ++ chs " " ++ sep ++
          chs " Song Y")
        = [chs "Song X", chs songMiami, chs "Song Y"]) := by
  constructor
  · decide
  · decide

/-- Witness for the amended claim C4: both universal conjuncts applied at a
concrete member, with the membership hypotheses discharged by evaluation. -/
theorem c4_amended_witness :
    parse_songs_from_setlist (chs songMiami) = [chs songMiami] ∧
    parse_songs_from_setlist
      (chs "Song X " ++ chs "," ++ chs " " ++ chs songMiami ++ chs " " ++ chs "," ++
        chs " Song Y")
      = [chs "Song X", chs songMiami, chs "Song Y"] :=
  ⟨c4_amended.1 (chs songMiami) (by decide), c4_amended.2 (chs ",") (by decide)⟩

end SF
